import Mathlib

/-! ollamaproxy: the translators between the Ollama and the OpenAI wire formats

A shallow embedding of the translation code of the repository:

* `main.go` (the LiteLLM variant): `handleChat` with its streaming pump and
  its non-streaming branch, and `handleListModels`;
* `infrastructures/chat.go` (the OpenAI variant): `OpenAIClient.Chat` and
  `toChatCompletionRequest`;
* `handlers/handlers.go`: `Handlers.Tags`.

Go strings and byte slices are lists of byte values (`Bytes`). The calls into
the Go standard library are modelled next to the code that makes them:
`strings.TrimSpace`, `strings.HasPrefix`, `strings.TrimPrefix`,
`bufio.Reader.ReadString`, `base64.StdEncoding` and the decoder of
`encoding/json`. The streaming pump takes `json.Unmarshal` as an argument, so
that what is proved of the pump holds for every decoder; the decoder modelled
here is the one used to run the pump on concrete bodies.

A function with fuel returns `none` when the fuel runs out; the statements on
the pump say that it returns `some` result.
-/

namespace OllamaProxy

/-! ## Bytes and the string helpers of the Go standard library -/

/-- A Go string or byte slice: the sequence of its byte values. -/
abbrev Bytes := List Nat

/-- UTF-8 encoding of one code point. -/
def utf8EncodeRune (c : Nat) : Bytes :=
  if c < 0x80 then [c]
  else if c < 0x800 then [0xC0 + c / 64, 0x80 + c % 64]
  else if c < 0x10000 then [0xE0 + c / 4096, 0x80 + c / 64 % 64, 0x80 + c % 64]
  else [0xF0 + c / 262144, 0x80 + c / 4096 % 64, 0x80 + c / 64 % 64, 0x80 + c % 64]

/-- The bytes of a string literal of the source (Go source text is UTF-8). -/
def utf8 (s : String) : Bytes :=
  s.toList.flatMap fun c => utf8EncodeRune c.toNat

/-- The six ASCII bytes for which `unicode.IsSpace` holds. -/
def isAsciiSpace (b : Nat) : Bool :=
  b == 9 || b == 10 || b == 11 || b == 12 || b == 13 || b == 32

/-- Two-byte encodings of white space: U+0085 and U+00A0. -/
def isSpace2 (b₀ b₁ : Nat) : Bool :=
  b₀ == 0xC2 && (b₁ == 0x85 || b₁ == 0xA0)

/-- Three-byte encodings of white space: U+1680, U+2000 to U+200A, U+2028,
U+2029, U+202F, U+205F and U+3000. -/
def isSpace3 (b₀ b₁ b₂ : Nat) : Bool :=
  (b₀ == 0xE1 && b₁ == 0x9A && b₂ == 0x80)
  || (b₀ == 0xE2 && b₁ == 0x80 && ((0x80 ≤ b₂ && b₂ ≤ 0x8A) || b₂ == 0xA8 || b₂ == 0xA9 || b₂ == 0xAF))
  || (b₀ == 0xE2 && b₁ == 0x81 && b₂ == 0x9F)
  || (b₀ == 0xE3 && b₁ == 0x80 && b₂ == 0x80)

/-- Go `strings.TrimLeftFunc(s, unicode.IsSpace)`: drops the leading runes that
are white space. A byte that does not start a valid encoding decodes to
U+FFFD, which is not white space, so trimming stops there. -/
def trimLeftSpace : Bytes → Bytes
  | [] => []
  | b₀ :: t₀ =>
    if isAsciiSpace b₀ then trimLeftSpace t₀
    else
      match t₀ with
      | [] => [b₀]
      | b₁ :: t₁ =>
        if isSpace2 b₀ b₁ then trimLeftSpace t₁
        else
          match t₁ with
          | [] => [b₀, b₁]
          | b₂ :: t₂ =>
            if isSpace3 b₀ b₁ b₂ then trimLeftSpace t₂ else b₀ :: b₁ :: b₂ :: t₂

/-- Go `strings.TrimRightFunc(s, unicode.IsSpace)` on the reversed bytes: drops
the trailing runes that are white space (`rev` is the string read backwards). -/
def trimRightSpaceRev : Bytes → Bytes
  | [] => []
  | b₀ :: t₀ =>
    if isAsciiSpace b₀ then trimRightSpaceRev t₀
    else
      match t₀ with
      | [] => [b₀]
      | b₁ :: t₁ =>
        if isSpace2 b₁ b₀ then trimRightSpaceRev t₁
        else
          match t₁ with
          | [] => [b₀, b₁]
          | b₂ :: t₂ =>
            if isSpace3 b₂ b₁ b₀ then trimRightSpaceRev t₂ else b₀ :: b₁ :: b₂ :: t₂

/-- Go `strings.TrimSpace`: the string without leading and trailing white
space, as defined by Unicode. -/
def trimSpace (s : Bytes) : Bytes :=
  (trimRightSpaceRev (trimLeftSpace s).reverse).reverse

/-- Go `strings.HasPrefix`. -/
def hasPrefix : Bytes → Bytes → Bool
  | _, [] => true
  | [], _ :: _ => false
  | b :: s, p :: ps => b == p && hasPrefix s ps

/-- Go `strings.TrimPrefix`: `s` without the leading `p`, or `s` itself when
`p` is not a prefix. -/
def trimPrefix (s p : Bytes) : Bytes :=
  if hasPrefix s p then s.drop p.length else s

/-! ## The JSON decoder of the Go standard library (`encoding/json`) -/

/-- A parsed JSON value; strings are unquoted, a number keeps its text. -/
inductive Json where
  | null
  | bool (b : Bool)
  | num (text : Bytes)
  | str (s : Bytes)
  | arr (xs : List Json)
  | obj (members : List (Bytes × Json))

/-- The white space of JSON: space, tab, carriage return and line feed. -/
def isJsonSpace (b : Nat) : Bool :=
  b == 0x20 || b == 0x09 || b == 0x0D || b == 0x0A

/-- The input without its leading JSON white space. -/
def skipSpace : Bytes → Bytes
  | [] => []
  | b :: t => if isJsonSpace b then skipSpace t else b :: t

/-- Value of a hexadecimal digit. -/
def hexVal (b : Nat) : Option Nat :=
  if 0x30 ≤ b ∧ b ≤ 0x39 then some (b - 0x30)
  else if 0x61 ≤ b ∧ b ≤ 0x66 then some (b - 0x61 + 10)
  else if 0x41 ≤ b ∧ b ≤ 0x46 then some (b - 0x41 + 10)
  else none

/-- Where the scanner stands inside a string literal. -/
inductive StrState where
  | plain
  | esc
  | hex (left : Nat)

/-- The scanner inside a string literal (`stateInString` and its escape
states): the raw bytes up to the closing quote, and the input after it. A
control byte, an unknown escape or a short `\u` escape is a syntax error. -/
def scanString : StrState → Bytes → Option (Bytes × Bytes)
  | _, [] => none
  | .plain, b :: t =>
    if b == 0x22 then some ([], t)
    else if b == 0x5C then (scanString .esc t).map fun r => (b :: r.1, r.2)
    else if b < 0x20 then none
    else (scanString .plain t).map fun r => (b :: r.1, r.2)
  | .esc, b :: t =>
    if b == 0x75 then (scanString (.hex 4) t).map fun r => (b :: r.1, r.2)
    else if b == 0x62 || b == 0x66 || b == 0x6E || b == 0x72 || b == 0x74
        || b == 0x5C || b == 0x2F || b == 0x22 then
      (scanString .plain t).map fun r => (b :: r.1, r.2)
    else none
  | .hex n, b :: t =>
    if (hexVal b).isSome then
      (scanString (if n ≤ 1 then .plain else .hex (n - 1)) t).map fun r => (b :: r.1, r.2)
    else none

/-- Go `getu4`: the code unit of a leading `\uXXXX` escape. -/
def getu4 : Bytes → Option Nat
  | 0x5C :: 0x75 :: a :: b :: c :: d :: _ =>
    match hexVal a, hexVal b, hexVal c, hexVal d with
    | some a, some b, some c, some d => some (a * 4096 + b * 256 + c * 16 + d)
    | _, _, _, _ => none
  | _ => none

/-- Is the byte a UTF-8 continuation byte. -/
def isCont (b : Nat) : Bool := 0x80 ≤ b && b ≤ 0xBF

/-- Go `utf8.DecodeRune`, as far as the width goes: the number of bytes of the
valid encoding at the head of the input, 0 when the head is not one (overlong
forms, surrogates and values above U+10FFFF are not valid). -/
def utf8Width : Bytes → Nat
  | [] => 0
  | b₀ :: t =>
    if b₀ < 0x80 then 1
    else if 0xC2 ≤ b₀ && b₀ ≤ 0xDF then
      match t with
      | b₁ :: _ => if isCont b₁ then 2 else 0
      | _ => 0
    else if 0xE0 ≤ b₀ && b₀ ≤ 0xEF then
      match t with
      | b₁ :: b₂ :: _ =>
        if (if b₀ == 0xE0 then 0xA0 else 0x80) ≤ b₁ && b₁ ≤ (if b₀ == 0xED then 0x9F else 0xBF)
            && isCont b₂ then 3 else 0
      | _ => 0
    else if 0xF0 ≤ b₀ && b₀ ≤ 0xF4 then
      match t with
      | b₁ :: b₂ :: b₃ :: _ =>
        if (if b₀ == 0xF0 then 0x90 else 0x80) ≤ b₁ && b₁ ≤ (if b₀ == 0xF4 then 0x8F else 0xBF)
            && isCont b₂ && isCont b₃ then 4 else 0
      | _ => 0
    else 0

/-- The encoding of U+FFFD, which replaces what cannot be decoded. -/
def replacementChar : Bytes := [0xEF, 0xBF, 0xBD]

/-- Go `unquote` on the raw bytes of a string literal: escapes are replaced,
a surrogate pair of `\u` escapes becomes one code point and a lone surrogate
U+FFFD, and every byte that is not part of a valid UTF-8 encoding becomes
U+FFFD. Each round consumes at least one byte, the fuel is the length. -/
def unquoteLoop : Nat → Bytes → Bytes
  | 0, _ => []
  | _ + 1, [] => []
  | fuel + 1, b :: t =>
    if b == 0x5C then
      match t with
      | [] => []
      | e :: t' =>
        if e == 0x75 then
          match getu4 (b :: t) with
          | none => []
          | some rr =>
            if 0xD800 ≤ rr ∧ rr < 0xE000 then
              match getu4 (t.drop 5) with
              | some rr₁ =>
                if rr < 0xDC00 ∧ 0xDC00 ≤ rr₁ ∧ rr₁ < 0xE000 then
                  utf8EncodeRune ((rr - 0xD800) * 1024 + (rr₁ - 0xDC00) + 0x10000)
                    ++ unquoteLoop fuel (t.drop 11)
                else replacementChar ++ unquoteLoop fuel (t.drop 5)
              | none => replacementChar ++ unquoteLoop fuel (t.drop 5)
            else utf8EncodeRune rr ++ unquoteLoop fuel (t.drop 5)
        else
          (if e == 0x62 then 0x08 else if e == 0x66 then 0x0C else if e == 0x6E then 0x0A
            else if e == 0x72 then 0x0D else if e == 0x74 then 0x09 else e)
            :: unquoteLoop fuel t'
    else if b < 0x80 then b :: unquoteLoop fuel t
    else
      match utf8Width (b :: t) with
      | 0 => replacementChar ++ unquoteLoop fuel t
      | w => (b :: t).take w ++ unquoteLoop fuel ((b :: t).drop w)

/-- Go `unquote` (the length is fuel enough, `unquoteLoop_fuel`). -/
def unquote (raw : Bytes) : Bytes :=
  unquoteLoop raw.length raw

/-- The digits at the head of the input, and the input after them. -/
def spanDigits : Bytes → Bytes × Bytes
  | [] => ([], [])
  | b :: t =>
    if 0x30 ≤ b ∧ b ≤ 0x39 then ((spanDigits t).1.cons b, (spanDigits t).2) else ([], b :: t)

/-- The input after an optional minus sign. -/
def dropSign : Bytes → Bytes
  | 0x2D :: t => t
  | input => input

/-- The input after the integer part of a number: a single `0`, or digits that
start with another digit; `none` when there is no digit. -/
def scanInt : Bytes → Option Bytes
  | 0x30 :: t => some t
  | input => if (spanDigits input).1 = [] then none else some (spanDigits input).2

/-- The input after an optional fraction: a point and at least one digit. -/
def scanFrac : Bytes → Option Bytes
  | 0x2E :: t => if (spanDigits t).1 = [] then none else some (spanDigits t).2
  | input => some input

/-- The input after an optional sign of an exponent. -/
def dropExpSign : Bytes → Bytes
  | s :: t => if s == 0x2B || s == 0x2D then t else s :: t
  | [] => []

/-- The input after an optional exponent: `e` or `E`, an optional sign and at
least one digit. -/
def scanExp : Bytes → Option Bytes
  | e :: t =>
    if e == 0x65 || e == 0x45 then
      if (spanDigits (dropExpSign t)).1 = [] then none else some (spanDigits (dropExpSign t)).2
    else some (e :: t)
  | [] => some []

/-- The scanner on a number: the text of the number at the head of the input
and the input after it; `none` when the head is not a number of the JSON
grammar (a lone sign, a missing digit after the point or the exponent). -/
def scanNumber (input : Bytes) : Option (Bytes × Bytes) :=
  match scanInt (dropSign input) with
  | none => none
  | some r₁ =>
    match scanFrac r₁ with
    | none => none
    | some r₂ =>
      match scanExp r₂ with
      | none => none
      | some r₃ => some (input.take (input.length - r₃.length), r₃)

/-- A container that the parser has opened and not yet closed: an array with
the elements read so far (last first), an object with its members read so
far (last first), and an object waiting for the value of `key`. -/
inductive Frame where
  | arr (done : List Json)
  | obj (done : List (Bytes × Json))
  | member (done : List (Bytes × Json)) (key : Bytes)

/-- What the parser expects next. -/
inductive Mode where
  | value
  | valueOrEnd
  | keyOrEnd
  | key
  | after (v : Json)

/-- Deepest nesting the scanner accepts (`maxNestingDepth`). -/
def maxNestingDepth : Nat := 10000

/-- The parser at the start of a value; `input` has no leading white space. -/
def stepValue (stack : List Frame) (input : Bytes) : Option (Mode × List Frame × Bytes) :=
  match input with
  | [] => none
  | b :: t =>
    if b = 0x22 then
      (scanString .plain t).map fun r => (.after (.str (unquote r.1)), stack, r.2)
    else if b = 0x7B then
      if stack.length + 1 > maxNestingDepth then none else some (.keyOrEnd, .obj [] :: stack, t)
    else if b = 0x5B then
      if stack.length + 1 > maxNestingDepth then none else some (.valueOrEnd, .arr [] :: stack, t)
    else if hasPrefix input (utf8 "true") then some (.after (.bool true), stack, input.drop 4)
    else if hasPrefix input (utf8 "false") then some (.after (.bool false), stack, input.drop 5)
    else if hasPrefix input (utf8 "null") then some (.after .null, stack, input.drop 4)
    else (scanNumber input).map fun r => (.after (.num r.1), stack, r.2)

/-- The parser at the start of an object key; `input` has no leading white
space. The key is followed by a colon. -/
def stepKey (done : List (Bytes × Json)) (stack : List Frame) (input : Bytes) :
    Option (Mode × List Frame × Bytes) :=
  match input with
  | 0x22 :: t =>
    match scanString .plain t with
    | none => none
    | some (raw, rest) =>
      match skipSpace rest with
      | 0x3A :: rest' => some (.value, .member done (unquote raw) :: stack, rest')
      | _ => none
  | _ => none

/-- One step of the parser: the value and what follows it once the top-level
value is complete, the next configuration otherwise, `none` on a syntax
error. Every step but the last consumes at least one byte. -/
def step (mode : Mode) (stack : List Frame) (input : Bytes) :
    Option ((Json × Bytes) ⊕ (Mode × List Frame × Bytes)) :=
  match mode, stack with
  | .value, _ => (stepValue stack (skipSpace input)).map .inr
  | .valueOrEnd, .arr _ :: stack' =>
    match skipSpace input with
    | 0x5D :: t => some (.inr (.after (.arr []), stack', t))
    | rest => (stepValue stack rest).map .inr
  | .keyOrEnd, .obj _ :: stack' =>
    match skipSpace input with
    | 0x7D :: t => some (.inr (.after (.obj []), stack', t))
    | rest => (stepKey [] stack' rest).map .inr
  | .key, .obj done :: stack' => (stepKey done stack' (skipSpace input)).map .inr
  | .after v, [] => some (.inl (v, input))
  | .after v, .arr done :: stack' =>
    match skipSpace input with
    | 0x2C :: t => some (.inr (.value, .arr (v :: done) :: stack', t))
    | 0x5D :: t => some (.inr (.after (.arr (v :: done).reverse), stack', t))
    | _ => none
  | .after v, .member done key :: stack' =>
    match skipSpace input with
    | 0x2C :: t => some (.inr (.key, .obj ((key, v) :: done) :: stack', t))
    | 0x7D :: t => some (.inr (.after (.obj ((key, v) :: done).reverse), stack', t))
    | _ => none
  | _, _ => none

/-- The parser loop, one round per step. -/
def parseLoop : Nat → Mode → List Frame → Bytes → Option (Json × Bytes)
  | 0, _, _, _ => none
  | fuel + 1, mode, stack, input =>
    match step mode stack input with
    | none => none
    | some (.inl r) => some r
    | some (.inr (mode', stack', input')) => parseLoop fuel mode' stack' input'

/-- The first JSON value of the input and the bytes after it, `none` when the
input does not start with a value of the JSON grammar. All steps but the last
consume a byte, so the length of the input is fuel enough (`parseLoop_fuel`). -/
def parseValue (input : Bytes) : Option (Json × Bytes) :=
  parseLoop (input.length + 1) .value [] input

/-- Go `checkValid` followed by the parse: the value when the whole input is
one JSON value between optional white space. -/
def parseJson (input : Bytes) : Option Json :=
  match parseValue input with
  | some (v, rest) => if skipSpace rest = [] then some v else none
  | none => none

/-- The case folding under which `encoding/json` matches an object key with a
struct field: ASCII letters in upper case, U+017F (long s) as `S` and U+212A
(Kelvin sign) as `K`. Other letters outside ASCII are left as they are: no
field name of this program has one. -/
def foldName : Bytes → Bytes
  | [] => []
  | 0xC5 :: 0xBF :: t => 0x53 :: foldName t
  | 0xE2 :: 0x84 :: 0xAA :: t => 0x4B :: foldName t
  | b :: t => (if 0x61 ≤ b ∧ b ≤ 0x7A then b - 0x20 else b) :: foldName t

/-- Does the object key select the struct field named `name`. -/
def keyMatches (key : Bytes) (name : String) : Bool :=
  foldName key == foldName (utf8 name)

/-! ## main.go: the wire schemas of the LiteLLM variant -/

namespace Main

/-- The struct `Message`: a chat message. -/
structure Message where
  role : Bytes
  content : Bytes
deriving DecidableEq

/-- The struct `GenerationRequest`: the inbound request, as decoded from the
body. A map or slice that is `nil` is `none`. -/
structure GenerationRequest where
  model : Bytes
  stream : Bool
  options : Option (List (Bytes × Json))
  keepAlive : Bytes
  messages : Option (List Message)

/-- The struct `LiteLLMRequest`: the outbound request. -/
structure LiteLLMRequest where
  model : Bytes
  messages : Option (List Message)
  stream : Bool
deriving DecidableEq

/-- The `Message` and the `Delta` struct of a choice of `LiteLLMResponse`. -/
structure Content where
  content : Bytes
deriving DecidableEq

/-- One element of `LiteLLMResponse.Choices`. -/
structure Choice where
  message : Content
  delta : Content
deriving DecidableEq

/-- The struct `LiteLLMResponse`: an upstream response or stream chunk. -/
structure LiteLLMResponse where
  choices : List Choice
deriving DecidableEq

/-- The struct `OllamaResponse`: a record written to the client. -/
structure OllamaResponse where
  model : Bytes
  message : Message
  done : Bool
deriving DecidableEq

/-- One element of `ModelResponse.Data`. -/
structure ModelEntry where
  id : Bytes
deriving DecidableEq

/-- The struct `ModelResponse`: the upstream model list. -/
structure ModelResponse where
  data : List ModelEntry
deriving DecidableEq

/-- One element of `OllamaModelResponse.Models`; `details` is a map, given by
its entries. -/
structure OllamaModel where
  name : Bytes
  model : Bytes
  modifiedAt : Bytes
  size : Int
  digest : Bytes
  details : List (Bytes × Bytes)
deriving DecidableEq

/-- The struct `OllamaModelResponse`: the model list sent to the client. -/
structure OllamaModelResponse where
  models : List OllamaModel
deriving DecidableEq

/-! ### `json.Unmarshal` into a `LiteLLMResponse`

A decoding step takes the value stored so far and returns the new value with
a flag that is false when a type error was saved. A JSON `null` leaves a
string or a struct as it is; an object decodes member by member into the
fields its keys select and skips the other members. -/

/-- Decoding into a `string` field. -/
def decodeString (cur : Bytes) : Json → Bytes × Bool
  | .str s => (s, true)
  | .null => (cur, true)
  | _ => (cur, false)

/-- Decoding into a struct with the one field `content`. -/
def decodeContent (cur : Content) : Json → Content × Bool
  | .obj members =>
    members.foldl
      (fun acc kv =>
        if keyMatches kv.1 "content" then
          let r := decodeString acc.1.content kv.2
          ({ content := r.1 }, acc.2 && r.2)
        else acc)
      (cur, true)
  | .null => (cur, true)
  | _ => (cur, false)

/-- Decoding into an element of `Choices`. -/
def decodeChoice (cur : Choice) : Json → Choice × Bool
  | .obj members =>
    members.foldl
      (fun acc kv =>
        if keyMatches kv.1 "message" then
          let r := decodeContent acc.1.message kv.2
          ({ acc.1 with message := r.1 }, acc.2 && r.2)
        else if keyMatches kv.1 "delta" then
          let r := decodeContent acc.1.delta kv.2
          ({ acc.1 with delta := r.1 }, acc.2 && r.2)
        else acc)
      (cur, true)
  | .null => (cur, true)
  | _ => (cur, false)

/-- Decoding into the slice `Choices`: the i-th element of an array decodes
into the i-th element stored so far, or into a zero element beyond the
length so far (what an earlier, longer value of a repeated key left in the
spare capacity of the slice is not modelled), and the slice gets the length
of the array; `null` gives the nil slice. -/
def decodeChoices (cur : List Choice) : Json → List Choice × Bool
  | .arr xs =>
    let rs := xs.enum.map fun ix =>
      decodeChoice (cur.getD ix.1 { message := { content := [] }, delta := { content := [] } }) ix.2
    (rs.map Prod.fst, rs.all Prod.snd)
  | .null => ([], true)
  | _ => (cur, false)

/-- Decoding into a `LiteLLMResponse`. -/
def decodeLiteLLMResponse (cur : LiteLLMResponse) : Json → LiteLLMResponse × Bool
  | .obj members =>
    members.foldl
      (fun acc kv =>
        if keyMatches kv.1 "choices" then
          let r := decodeChoices acc.1.choices kv.2
          ({ choices := r.1 }, acc.2 && r.2)
        else acc)
      (cur, true)
  | .null => (cur, true)
  | _ => (cur, false)

/-- Go `json.Unmarshal(data, &liteLLMResp)` on a zero `liteLLMResp`: `none`
when Unmarshal returns an error (a syntax error, or a value of the wrong JSON
type for a field), the decoded struct otherwise. -/
def unmarshalLiteLLMResponse (data : Bytes) : Option LiteLLMResponse :=
  match parseJson data with
  | none => none
  | some j =>
    let r := decodeLiteLLMResponse { choices := [] } j
    if r.2 then some r.1 else none

/-- Go `json.NewDecoder(body).Decode(&liteLLMResp)` on a zero `liteLLMResp`:
the first JSON value of the body is decoded and what follows it is left
unread; `none` when Decode returns an error. -/
def decodeLiteLLMResponseBody (body : Bytes) : Option LiteLLMResponse :=
  match parseValue body with
  | none => none
  | some (j, _) =>
    let r := decodeLiteLLMResponse { choices := [] } j
    if r.2 then some r.1 else none

/-! ### `handleChat`: the outbound request (lines 196 to 215) -/

/-- Go `m[key] = value` on a map given by its entries. -/
def mapSet (m : List (Bytes × Json)) (key : Bytes) (value : Json) : List (Bytes × Json) :=
  (m.filter fun kv => kv.1 != key) ++ [(key, value)]

/-- Lines 196 to 202: `ollamaReq` after the options map has been made when
nil and `litellm_settings` has been stored in it. -/
def injectSettings (ollamaReq : GenerationRequest) : GenerationRequest :=
  { ollamaReq with
    options := some (mapSet (ollamaReq.options.getD []) (utf8 "litellm_settings")
      (.obj [(utf8 "modify_params", .bool true)])) }

/-- Lines 204 to 208: the `LiteLLMRequest` built from `ollamaReq`. -/
def liteLLMRequest (ollamaReq : GenerationRequest) : LiteLLMRequest :=
  let ollamaReq := injectSettings ollamaReq
  { model := ollamaReq.model
    messages := ollamaReq.messages
    stream := ollamaReq.stream }

/-- The JSON value that `json.Marshal` writes for a `Message`. -/
def marshalMessage (m : Message) : Json :=
  .obj [(utf8 "role", .str m.role), (utf8 "content", .str m.content)]

/-- The JSON value that `json.Marshal` writes for a `LiteLLMRequest`: the
fields in the order of the struct, a nil slice as `null`, and `stream` left
out when false (`omitempty`). -/
def marshalLiteLLMRequest (r : LiteLLMRequest) : Json :=
  .obj ([(utf8 "model", .str r.model),
         (utf8 "messages",
            match r.messages with
            | none => .null
            | some ms => .arr (ms.map marshalMessage))]
        ++ (if r.stream then [(utf8 "stream", .bool true)] else []))

/-- Line 211: `reqBody`, the body sent to the backend, as a JSON value. -/
def requestBody (ollamaReq : GenerationRequest) : Json :=
  marshalLiteLLMRequest (liteLLMRequest ollamaReq)

/-- The keys of the members of a JSON object, none for another value. -/
def objectKeys : Json → List Bytes
  | .obj members => members.map Prod.fst
  | _ => []

/-! ### `handleChat`: the streaming pump (lines 259 to 312) -/

/-- The error that ends the reads from the upstream body: `io.EOF`, or
another read error. -/
inductive ReadError where
  | eof
  | other
deriving DecidableEq

/-- The upstream response body: the bytes it delivers, and the error that the
read after the last byte returns. -/
structure Upstream where
  data : Bytes
  closing : ReadError

/-- Go `reader.ReadString(0x0A)` on the bytes that the body still delivers: the
bytes up to and including the first line feed, the bytes after it, and
`true`; when no line feed is left, all the bytes and `false` (the read hits
the closing error and returns it with the data read before). -/
def readString : Bytes → Bytes × Bytes × Bool
  | [] => ([], [], false)
  | b :: t =>
    if b = 0x0A then ([b], t, true)
    else ((readString t).1.cons b, (readString t).2.1, (readString t).2.2)

/-- What the pump does, in order: a call of `ReadString` with the line and the
error it returned, a `Fprintf` of the marshalled record and a line feed to the
response writer with `ok` false when the write failed, a `Flush`. -/
inductive Event where
  | read (line : Bytes) (err : Option ReadError)
  | write (r : OllamaResponse) (ok : Bool)
  | flush
deriving DecidableEq

/-- How one round of the loop ends: `continue` without a write, `break`, or a
write followed by the next round. -/
inductive Action where
  | next
  | stop
  | emit (r : OllamaResponse)
deriving DecidableEq

/-- Lines 269 to 301: the round of the loop for a line that `ReadString` has
returned without an error. `unmarshal` is `json.Unmarshal` into a fresh
`LiteLLMResponse`, `none` when it returns an error. -/
def streamBody (unmarshal : Bytes → Option LiteLLMResponse) (model : Bytes) (line : Bytes) :
    Action :=
  let line := trimSpace line
  if line = [] then .next
  else
    let line := if hasPrefix line (utf8 "data: ") then trimPrefix line (utf8 "data: ") else line
    if line = utf8 "[DONE]" then .stop
    else
      match unmarshal line with
      | none => .next
      | some liteLLMResp =>
        match liteLLMResp.choices with
        | [] => .next
        | choice :: _ =>
          let content := choice.delta.content
          if content ≠ [] then
            .emit { model := model
                    message := { content := content, role := utf8 "assistant" }
                    done := false }
          else .next

/-- Lines 260 to 302: the loop, with one unit of fuel per round. `rest` is what
the body still delivers, `written` counts the writes so far, and `sink k`
tells whether the k-th write to the client succeeds. The result is the events
of the loop and the number of writes, `none` when the fuel runs out. -/
def streamLoop (unmarshal : Bytes → Option LiteLLMResponse) (model : Bytes)
    (closing : ReadError) (sink : Nat → Bool) :
    Nat → Bytes → Nat → Option (List Event × Nat)
  | 0, _, _ => none
  | fuel + 1, rest, written =>
    match readString rest with
    | (line, _, false) => some ([.read line (some closing)], written)
    | (line, rest', true) =>
      match streamBody unmarshal model line with
      | .stop => some ([.read line none], written)
      | .next =>
        (streamLoop unmarshal model closing sink fuel rest' written).map fun r =>
          (.read line none :: r.1, r.2)
      | .emit resp =>
        (streamLoop unmarshal model closing sink fuel rest' (written + 1)).map fun r =>
          (.read line none :: .write resp (sink written) :: .flush :: r.1, r.2)

/-- Lines 305 to 309: the final record. -/
def finalRecord (model : Bytes) : OllamaResponse :=
  { model := model
    message := { content := [], role := utf8 "assistant" }
    done := true }

/-- Lines 259 to 312: the streaming pump, from the creation of the reader to
the last flush. Every round of the loop reads at least one byte, so the
length of the body is fuel enough. -/
def handleChatStream (unmarshal : Bytes → Option LiteLLMResponse) (model : Bytes)
    (body : Upstream) (sink : Nat → Bool) : Option (List Event) :=
  match streamLoop unmarshal model body.closing sink (body.data.length + 1) body.data 0 with
  | none => none
  | some (events, written) =>
    some (events ++ [.write (finalRecord model) (sink written), .flush])

/-- The records that the pump passed to the response writer, in order. -/
def attempted : List Event → List OllamaResponse
  | [] => []
  | .write r _ :: es => r :: attempted es
  | _ :: es => attempted es

/-- The records whose write succeeded, in order. -/
def delivered : List Event → List OllamaResponse
  | [] => []
  | .write r true :: es => r :: delivered es
  | _ :: es => delivered es

/-- The lines that the pump got from `ReadString`, in order. -/
def linesRead : List Event → List Bytes
  | [] => []
  | .read line _ :: es => line :: linesRead es
  | _ :: es => linesRead es

/-- The bytes of the records on the wire: each one marshalled by `marshal`
and followed by a line feed. -/
def wire (marshal : OllamaResponse → Bytes) (records : List OllamaResponse) : Bytes :=
  records.flatMap fun r => marshal r ++ [0x0A]

/-- An upstream body made of complete lines followed by `tail`: each line is
given without its line feed. -/
def streamOf (lines : List Bytes) (tail : Bytes) : Bytes :=
  (lines.flatMap fun l => l ++ [0x0A]) ++ tail

/-! ### `handleChat`: the non-streaming branch (lines 328 to 347) -/

/-- What the handler sends to the client: an error with its status, or the
JSON encoding of a record with status 200. -/
inductive Reply (α : Type) where
  | error (status : Nat) (message : Bytes)
  | json (value : α)
deriving DecidableEq

/-- Lines 328 to 347: the translation of the body of an upstream response with
status 200. `decode` is `json.NewDecoder(resp.Body).Decode` into a fresh
`LiteLLMResponse`, `none` when it returns an error. -/
def handleChatNonStream (decode : Bytes → Option LiteLLMResponse) (model : Bytes)
    (body : Bytes) : Reply OllamaResponse :=
  match decode body with
  | none => .error 500 (utf8 "Failed to decode response")
  | some liteLLMResp =>
    let content :=
      match liteLLMResp.choices with
      | [] => []
      | choice :: _ => choice.message.content
    .json { model := model
            message := { content := content, role := utf8 "assistant" }
            done := true }

/-! ### `handleListModels` (lines 388 to 425) -/

/-- Decoding into an element of `ModelResponse.Data`. -/
def decodeModelEntry (cur : ModelEntry) : Json → ModelEntry × Bool
  | .obj members =>
    members.foldl
      (fun acc kv =>
        if keyMatches kv.1 "id" then
          let r := decodeString acc.1.id kv.2
          ({ id := r.1 }, acc.2 && r.2)
        else acc)
      (cur, true)
  | .null => (cur, true)
  | _ => (cur, false)

/-- Decoding into the slice `ModelResponse.Data`. -/
def decodeData (cur : List ModelEntry) : Json → List ModelEntry × Bool
  | .arr xs =>
    let rs := xs.enum.map fun ix => decodeModelEntry (cur.getD ix.1 { id := [] }) ix.2
    (rs.map Prod.fst, rs.all Prod.snd)
  | .null => ([], true)
  | _ => (cur, false)

/-- Decoding into a `ModelResponse`. -/
def decodeModelResponse (cur : ModelResponse) : Json → ModelResponse × Bool
  | .obj members =>
    members.foldl
      (fun acc kv =>
        if keyMatches kv.1 "data" then
          let r := decodeData acc.1.data kv.2
          ({ data := r.1 }, acc.2 && r.2)
        else acc)
      (cur, true)
  | .null => (cur, true)
  | _ => (cur, false)

/-- Go `json.NewDecoder(body).Decode(&modelResp)` on a zero `modelResp`, `none`
when Decode returns an error. -/
def decodeModelResponseBody (body : Bytes) : Option ModelResponse :=
  match parseValue body with
  | none => none
  | some (j, _) =>
    let r := decodeModelResponse { data := [] } j
    if r.2 then some r.1 else none

/-- Lines 394 to 422: a slice of as many zero elements as the upstream list
has entries, then the i-th element set from the i-th entry. -/
def toOllamaModels (modelResp : ModelResponse) : OllamaModelResponse :=
  let zero : OllamaModel :=
    { name := [], model := [], modifiedAt := [], size := 0, digest := [], details := [] }
  { models :=
      modelResp.data.enum.foldl
        (fun models im =>
          models.set im.1
            { name := im.2.id
              model := im.2.id
              modifiedAt := []
              size := 0
              digest := []
              details := [] })
        (List.replicate modelResp.data.length zero) }

/-- Lines 388 to 425: the translation of the body of an upstream model list
with status 200. `decode` is `json.NewDecoder(resp.Body).Decode` into a fresh
`ModelResponse`, `none` when it returns an error. -/
def handleListModels (decode : Bytes → Option ModelResponse) (body : Bytes) :
    Reply OllamaModelResponse :=
  match decode body with
  | none => .error 500 (utf8 "Failed to decode response")
  | some modelResp => .json (toOllamaModels modelResp)

end Main

/-! ## infrastructures/chat.go: the OpenAI variant -/

namespace Infrastructures

/-- Go `base64.StdEncoding`: the alphabet. -/
def encodeStd : Bytes :=
  utf8 "ABCDEFGHIJKLMNOPQRSTUVWXYZabcdefghijklmnopqrstuvwxyz0123456789+/"

/-- The character of the alphabet for a group of six bits. -/
def encodeSextet (v : Nat) : Nat :=
  encodeStd.getD (v % 64) 0

/-- Go `base64.StdEncoding.EncodeToString`: four characters for every three
bytes, and a last group padded with `=` for one or two bytes left over. -/
def encodeToString : Bytes → Bytes
  | [] => []
  | [a] =>
    let val := a * 65536
    [encodeSextet (val / 262144), encodeSextet (val / 4096), 0x3D, 0x3D]
  | [a, b] =>
    let val := a * 65536 + b * 256
    [encodeSextet (val / 262144), encodeSextet (val / 4096), encodeSextet (val / 64), 0x3D]
  | a :: b :: c :: t =>
    let val := a * 65536 + b * 256 + c
    [encodeSextet (val / 262144), encodeSextet (val / 4096), encodeSextet (val / 64),
      encodeSextet val] ++ encodeToString t

/-- The fields of `api.Message` that the translation reads. -/
structure Message where
  role : Bytes
  content : Bytes
  images : List Bytes
deriving DecidableEq

/-- The fields of `api.ChatRequest` that the translation reads. -/
structure ChatRequest where
  model : Bytes
  messages : List Message
deriving DecidableEq

/-- A content part of an outbound message: `openai.TextPart`, or a
`ChatCompletionContentPartImageParam` of type `image_url` with its URL. -/
inductive ContentPart where
  | text (text : Bytes)
  | imageURL (url : Bytes)
deriving DecidableEq

/-- An outbound message (`openai.ChatCompletionMessageParamUnion`): its role
and its content parts. -/
structure MessageParam where
  role : Bytes
  content : List ContentPart
deriving DecidableEq

/-- The struct `openai.ChatCompletionNewParams`, as far as it is set. -/
structure ChatCompletionNewParams where
  messages : List MessageParam
  model : Bytes
deriving DecidableEq

/-- The constructor `openai.UserMessageParts`. -/
def userMessageParts (parts : List ContentPart) : MessageParam :=
  { role := utf8 "user", content := parts }

/-- The constructor `openai.AssistantMessage`. -/
def assistantMessage (content : Bytes) : MessageParam :=
  { role := utf8 "assistant", content := [.text content] }

/-- The function `toChatCompletionRequest` (`lo.Map` is the map of a slice). -/
def toChatCompletionRequest (r : ChatRequest) : ChatCompletionNewParams :=
  let messages := r.messages.map fun msg =>
    if msg.role = utf8 "user" then
      let parts := msg.images.map fun v =>
        ContentPart.imageURL (utf8 "data:image/jpeg;base64," ++ encodeToString v)
      let parts := if parts.length = 0 then parts ++ [.text msg.content] else parts
      userMessageParts parts
    else assistantMessage msg.content
  { messages := messages, model := r.model }

/-- The `Message` of a choice of `openai.ChatCompletion`. -/
structure CompletionMessage where
  content : Bytes
deriving DecidableEq

/-- One element of `openai.ChatCompletion.Choices`. -/
structure CompletionChoice where
  message : CompletionMessage
deriving DecidableEq

/-- The struct `openai.ChatCompletion`, as far as it is read. -/
structure ChatCompletion where
  choices : List CompletionChoice
deriving DecidableEq

/-- The struct `api.ChatResponse`, as far as it is set; `createdAt` is a time
in seconds since the epoch. -/
structure ChatResponse where
  model : Bytes
  createdAt : Int
  message : Message
  doneReason : Bytes
  done : Bool
deriving DecidableEq

/-- How a Go call ends: it returns a value, it returns an error, or it
panics. -/
inductive Outcome (α : Type) where
  | value (a : α)
  | error (err : Bytes)
  | panic (msg : Bytes)
deriving DecidableEq

/-- The method `OpenAIClient.Chat`. `completions` is the call
`c.client.Chat.Completions.New` and `now` the value of `time.Now().UTC()`.
The index expression `tmp.Choices[0]` panics on an empty slice. -/
def Chat (completions : ChatCompletionNewParams → Except Bytes ChatCompletion) (now : Int)
    (req : ChatRequest) : Outcome ChatResponse :=
  match completions (toChatCompletionRequest req) with
  | .error err => .error err
  | .ok tmp =>
    match tmp.choices with
    | [] => .panic (utf8 "runtime error: index out of range [0] with length 0")
    | choice :: _ =>
      .value
        { model := req.model
          createdAt := now
          message := { content := choice.message.content, role := utf8 "assistant", images := [] }
          doneReason := utf8 "unload"
          done := true }

end Infrastructures

/-! ## handlers/handlers.go -/

namespace Handlers

/-- The fields of `openai.Model`. -/
structure Model where
  id : Bytes
  created : Int
  object : Bytes
  ownedBy : Bytes
deriving DecidableEq

/-- The struct `api.ModelDetails` of the ollama module; the handler only uses
its zero value, `api.ModelDetails{}`. -/
inductive ModelDetails where
  | zero
deriving DecidableEq

/-- The struct `api.ListModelResponse`; `modifiedAt` is a time in seconds
since the epoch. -/
structure ListModelResponse where
  name : Bytes
  model : Bytes
  modifiedAt : Int
  size : Int
  digest : Bytes
  details : ModelDetails
deriving DecidableEq

/-- The zone of the server (`time.Local`): its offset from UTC, in seconds, at
every instant; the offset of a zone is less than a day. -/
structure Location where
  offset : Int → Int
  bounded : ∀ t, -86400 < offset t ∧ offset t < 86400

/-- The zone UTC. -/
def utc : Location :=
  { offset := fun _ => 0
    bounded := fun _ => ⟨(by decide : (-86400 : Int) < 0), (by decide : (0 : Int) < 86400)⟩ }

/-- The first second of the year 0, in seconds since the epoch. -/
def yearZero : Int := -62167219200

/-- The first second of the year 10000, in seconds since the epoch. -/
def yearTenThousand : Int := 253402300800

/-- Can `Time.MarshalJSON` encode `time.Unix(t, 0)`: it refuses a time whose
year, read in the zone of the time, is outside of the range 0 to 9999. An
`int64` so large that the seconds wrap around is far outside of that range
before and after the wrap. -/
def marshalableTime (loc : Location) (t : Int) : Bool :=
  decide (yearZero ≤ t + loc.offset t ∧ t + loc.offset t < yearTenThousand)

/-- What `Tags` sends: status 500 with the error, status 200 with the list, or
status 200 and no body when `c.JSON` cannot marshal the list. -/
inductive TagsReply where
  | internalServerError (err : Bytes)
  | ok (models : List ListModelResponse)
  | emptyBody
deriving DecidableEq

/-- The method `Handlers.Tags`. `listed` is the result of
`r.client.ListModels`, `loc` the zone of the server; `time.Unix(item.Created,
0)` is the time `Created` seconds after the epoch, in that zone. The call
`c.JSON` sets the status and marshals the list; when a time of the list cannot
be marshalled, nothing is written after the status. -/
def Tags (loc : Location) (listed : Except Bytes (List Model)) : TagsReply :=
  match listed with
  | .error err => .internalServerError err
  | .ok tmp =>
    let models : List ListModelResponse := tmp.map fun item =>
      { name := item.id
        model := item.id
        modifiedAt := item.created
        size := 0
        digest := utf8 "dummy"
        details := .zero }
    if models.all fun m => marshalableTime loc m.modifiedAt then .ok models else .emptyBody

end Handlers

/-! ## The vocabulary of the statements -/

namespace Main

/-- The payload of a line as the pump sees it: the line trimmed, without the
prefix `data: ` when it has one. -/
def payload (line : Bytes) : Bytes :=
  let line := trimSpace line
  if hasPrefix line (utf8 "data: ") then trimPrefix line (utf8 "data: ") else line

/-- The record that the round of the loop writes for a line, if it writes
one; `l` is the line without its line feed. -/
def lineRecord (unmarshal : Bytes → Option LiteLLMResponse) (model : Bytes) (l : Bytes) :
    Option OllamaResponse :=
  match streamBody unmarshal model (l ++ [0x0A]) with
  | .emit r => some r
  | _ => none

/-- Does the round of the loop for the line leave the loop; `l` is the line
without its line feed. -/
def endsLoop (unmarshal : Bytes → Option LiteLLMResponse) (model : Bytes) (l : Bytes) : Bool :=
  decide (streamBody unmarshal model (l ++ [0x0A]) = .stop)

/-- A sentinel line: its trimmed content is `data: [DONE]` or `[DONE]`; `l` is
the line without its line feed. -/
def SentinelLine (l : Bytes) : Prop :=
  trimSpace (l ++ [0x0A]) = utf8 "data: [DONE]" ∨ trimSpace (l ++ [0x0A]) = utf8 "[DONE]"

instance (l : Bytes) : Decidable (SentinelLine l) :=
  inferInstanceAs (Decidable (_ ∨ _))

/-- The parsed delta of the line has at least one choice with non-empty
incremental content; `l` is the line without its line feed. -/
def someChoiceHasContent (unmarshal : Bytes → Option LiteLLMResponse) (l : Bytes) : Bool :=
  match unmarshal (payload (l ++ [0x0A])) with
  | some resp => resp.choices.any fun c => decide (c.delta.content ≠ [])
  | none => false

/-- The parsed delta of the line has a first choice, and the incremental
content of that choice is not empty; `l` is the line without its line feed. -/
def firstChoiceHasContent (unmarshal : Bytes → Option LiteLLMResponse) (l : Bytes) : Bool :=
  match unmarshal (payload (l ++ [0x0A])) with
  | some resp =>
    match resp.choices with
    | c :: _ => decide (c.delta.content ≠ [])
    | [] => false
  | none => false

/-- The upstream line `data: {"choices":[{"delta":{"content":"c"}}]}` for the
text `c`, without its line feed. -/
def deltaLine (c : String) : Bytes :=
  utf8 ("data: \x7b\"choices\":[\x7b\"delta\":\x7b\"content\":\"" ++ c ++ "\"\x7d\x7d]\x7d")

/-- The upstream line
`data: {"choices":[{"delta":{"content":""}},{"delta":{"content":"B"}}]}`,
without its line feed: the first choice has no content, the second has. -/
def twoChoicesLine : Bytes :=
  utf8 ("data: \x7b\"choices\":[\x7b\"delta\":\x7b\"content\":\"\"\x7d\x7d,"
    ++ "\x7b\"delta\":\x7b\"content\":\"B\"\x7d\x7d]\x7d")

/-- The upstream line `data: {"choices":[{"delta"`, without its line feed: a
chunk cut short, which is not JSON. -/
def truncatedLine : Bytes :=
  utf8 "data: \x7b\"choices\":[\x7b\"delta\""

/-- No line is read and no record with `done` false is written. -/
def quiet : List Event → Bool
  | [] => true
  | .read _ _ :: _ => false
  | .write r _ :: es => r.done && quiet es
  | .flush :: es => quiet es

/-- After the first failed write of a record with `done` false, no line is
read and no record with `done` false is written. -/
def stopsAtFailedWrite : List Event → Bool
  | [] => true
  | .write r false :: es => if r.done then stopsAtFailedWrite es else quiet es
  | _ :: es => stopsAtFailedWrite es

end Main

/-! ## Lemmas on the library helpers -/

theorem hasPrefix_eq_append (s p : Bytes) (h : hasPrefix s p = true) :
    s = p ++ s.drop p.length := by
  induction p generalizing s with
  | nil => simp
  | cons a p ih =>
    cases s with
    | nil => simp [hasPrefix] at h
    | cons b s =>
      simp only [hasPrefix, Bool.and_eq_true, beq_iff_eq] at h
      simp only [List.length_cons, List.drop_succ_cons, List.cons_append]
      rw [← ih s h.2, h.1]

theorem skipSpace_length_le (s : Bytes) : (skipSpace s).length ≤ s.length := by
  induction s with
  | nil => simp [skipSpace]
  | cons b t ih =>
    unfold skipSpace
    split
    · exact Nat.le_succ_of_le ih
    · exact Nat.le_refl _

theorem scanString_length (t : Bytes) :
    ∀ (st : StrState) (raw rest : Bytes),
      scanString st t = some (raw, rest) → rest.length < t.length := by
  induction t with
  | nil => intro st raw rest h; cases st <;> simp [scanString] at h
  | cons b t ih =>
    intro st raw rest h
    have key : ∀ (st' : StrState) (raw' : Bytes),
        ((scanString st' t).map fun r => (b :: r.1, r.2)) = some (raw', rest) →
          rest.length < (b :: t).length := by
      intro st' raw' h'
      simp only [Option.map_eq_some'] at h'
      obtain ⟨r, hr, e⟩ := h'
      cases e
      exact Nat.lt_succ_of_lt (ih st' r.1 r.2 hr)
    cases st with
    | plain =>
      simp only [scanString] at h
      split at h
      · cases h; exact Nat.lt_succ_self _
      · split at h
        · exact key _ _ h
        · split at h
          · cases h
          · exact key _ _ h
    | esc =>
      simp only [scanString] at h
      split at h
      · exact key _ _ h
      · split at h
        · exact key _ _ h
        · cases h
    | hex n =>
      simp only [scanString] at h
      split at h
      · exact key _ _ h
      · cases h

/-- The loop of `unquote` never stops for lack of fuel: with at least as much
fuel as the input has bytes, the result does not depend on the fuel. -/
theorem unquoteLoop_fuel (fuel : Nat) :
    ∀ (fuel' : Nat) (raw : Bytes), raw.length ≤ fuel → raw.length ≤ fuel' →
      unquoteLoop fuel raw = unquoteLoop fuel' raw := by
  induction fuel with
  | zero =>
    intro fuel' raw h h'
    cases raw with
    | nil => cases fuel' <;> simp [unquoteLoop]
    | cons b t => simp at h
  | succ fuel ih =>
    intro fuel' raw h h'
    cases raw with
    | nil => cases fuel' <;> simp [unquoteLoop]
    | cons b t =>
      cases fuel' with
      | zero => simp at h'
      | succ fuel' =>
        simp only [List.length_cons] at h h'
        have key : ∀ x : Bytes, x.length ≤ t.length →
            unquoteLoop fuel x = unquoteLoop fuel' x :=
          fun x hx => ih fuel' x (by omega) (by omega)
        simp only [unquoteLoop]
        repeat' split
        all_goals first
          | (with_reducible rfl)
          | (congr 1; apply key; exact Nat.le_refl _)
          | (congr 1; apply key; simp only [List.length_drop, List.length_cons]; omega)
          | (congr 1; apply key; rename_i hw
             have := Nat.pos_of_ne_zero hw
             simp only [List.length_drop, List.length_cons]; omega)

theorem spanDigits_length_le (t : Bytes) : (spanDigits t).2.length ≤ t.length := by
  induction t with
  | nil => simp [spanDigits]
  | cons b t ih =>
    unfold spanDigits
    split
    · exact Nat.le_succ_of_le ih
    · exact Nat.le_refl _

theorem spanDigits_length_lt (t : Bytes) (h : (spanDigits t).1 ≠ []) :
    (spanDigits t).2.length < t.length := by
  cases t with
  | nil => simp [spanDigits] at h
  | cons b t =>
    unfold spanDigits at h ⊢
    split
    · exact Nat.lt_succ_of_le (spanDigits_length_le t)
    · rename_i hb
      simp [hb] at h

theorem dropSign_length_le (s : Bytes) : (dropSign s).length ≤ s.length := by
  unfold dropSign
  split
  · exact Nat.le_succ _
  · exact Nat.le_refl _

theorem scanInt_length (s rest : Bytes) (h : scanInt s = some rest) :
    rest.length < s.length := by
  unfold scanInt at h
  split at h
  · cases h; exact Nat.lt_succ_self _
  · split at h
    · cases h
    · rename_i hd
      cases h
      exact spanDigits_length_lt _ hd

theorem scanFrac_length (s rest : Bytes) (h : scanFrac s = some rest) :
    rest.length ≤ s.length := by
  unfold scanFrac at h
  split at h
  · split at h
    · cases h
    · cases h
      exact Nat.le_succ_of_le (spanDigits_length_le _)
  · cases h; exact Nat.le_refl _

theorem dropExpSign_length_le (s : Bytes) : (dropExpSign s).length ≤ s.length := by
  unfold dropExpSign
  split
  · split
    · exact Nat.le_succ _
    · exact Nat.le_refl _
  · exact Nat.le_refl _

theorem scanExp_length (s rest : Bytes) (h : scanExp s = some rest) :
    rest.length ≤ s.length := by
  unfold scanExp at h
  split at h
  · split at h
    · split at h
      · cases h
      · cases h
        exact Nat.le_succ_of_le
          (Nat.le_trans (spanDigits_length_le _) (dropExpSign_length_le _))
    · cases h; exact Nat.le_refl _
  · cases h; exact Nat.le_refl _

theorem scanNumber_length (input text rest : Bytes) (h : scanNumber input = some (text, rest)) :
    rest.length < input.length := by
  unfold scanNumber at h
  split at h
  · cases h
  · rename_i r₁ h₁
    split at h
    · cases h
    · rename_i r₂ h₂
      split at h
      · cases h
      · rename_i r₃ h₃
        cases h
        have a := scanInt_length _ _ h₁
        have b := scanFrac_length _ _ h₂
        have c := scanExp_length _ _ h₃
        have d := dropSign_length_le input
        omega

theorem stepValue_length (stack stack' : List Frame) (input rest : Bytes) (mode : Mode)
    (h : stepValue stack input = some (mode, stack', rest)) : rest.length < input.length := by
  unfold stepValue at h
  split at h
  · cases h
  · rename_i b t
    split at h
    · simp only [Option.map_eq_some'] at h
      obtain ⟨r, hr, e⟩ := h
      cases e
      exact Nat.lt_succ_of_lt (scanString_length _ _ _ _ hr)
    · split at h
      · split at h
        · cases h
        · cases h; exact Nat.lt_succ_self _
      · split at h
        · split at h
          · cases h
          · cases h; exact Nat.lt_succ_self _
        · split at h
          · cases h; simp; omega
          · split at h
            · cases h; simp; omega
            · split at h
              · cases h; simp; omega
              · simp only [Option.map_eq_some'] at h
                obtain ⟨r, hr, e⟩ := h
                cases e
                exact scanNumber_length _ _ _ hr

theorem stepKey_length (done : List (Bytes × Json)) (stack stack' : List Frame)
    (input rest : Bytes) (mode : Mode)
    (h : stepKey done stack input = some (mode, stack', rest)) : rest.length < input.length := by
  unfold stepKey at h
  split at h
  · split at h
    · cases h
    · rename_i raw rest₀ hs
      have a := scanString_length _ _ _ _ hs
      have b := skipSpace_length_le rest₀
      split at h
      · rename_i rest' hc
        cases h
        rw [hc] at b
        simp only [List.length_cons] at b ⊢
        omega
      · cases h
  · cases h

/-- Every step of the parser that is not the last consumes a byte. -/
theorem step_length (mode mode' : Mode) (stack stack' : List Frame) (input rest : Bytes)
    (h : step mode stack input = some (.inr (mode', stack', rest))) :
    rest.length < input.length := by
  have hs := skipSpace_length_le input
  unfold step at h
  split at h
  · simp only [Option.map_eq_some'] at h
    obtain ⟨r, hr, e⟩ := h
    cases e
    exact Nat.lt_of_lt_of_le (stepValue_length _ _ _ _ _ hr) hs
  · split at h
    · rename_i t hc
      cases h
      rw [hc] at hs
      exact hs
    · simp only [Option.map_eq_some'] at h
      obtain ⟨r, hr, e⟩ := h
      cases e
      exact Nat.lt_of_lt_of_le (stepValue_length _ _ _ _ _ hr) hs
  · split at h
    · rename_i t hc
      cases h
      rw [hc] at hs
      exact hs
    · simp only [Option.map_eq_some'] at h
      obtain ⟨r, hr, e⟩ := h
      cases e
      exact Nat.lt_of_lt_of_le (stepKey_length _ _ _ _ _ _ hr) hs
  · simp only [Option.map_eq_some'] at h
    obtain ⟨r, hr, e⟩ := h
    cases e
    exact Nat.lt_of_lt_of_le (stepKey_length _ _ _ _ _ _ hr) hs
  · cases h
  · split at h
    · rename_i t hc
      cases h
      rw [hc] at hs
      exact hs
    · rename_i t hc
      cases h
      rw [hc] at hs
      exact hs
    · cases h
  · split at h
    · rename_i t hc
      cases h
      rw [hc] at hs
      exact hs
    · rename_i t hc
      cases h
      rw [hc] at hs
      exact hs
    · cases h
  · cases h

/-- The parser never stops for lack of fuel: with more fuel than the input has
bytes, the result does not depend on the fuel. -/
theorem parseLoop_fuel (fuel : Nat) :
    ∀ (fuel' : Nat) (mode : Mode) (stack : List Frame) (input : Bytes),
      input.length < fuel → input.length < fuel' →
        parseLoop fuel mode stack input = parseLoop fuel' mode stack input := by
  induction fuel with
  | zero => intro fuel' mode stack input h; simp at h
  | succ fuel ih =>
    intro fuel' mode stack input h h'
    cases fuel' with
    | zero => simp at h'
    | succ fuel' =>
      simp only [parseLoop]
      cases hs : step mode stack input with
      | none => rfl
      | some r =>
        cases r with
        | inl v => rfl
        | inr c =>
          obtain ⟨mode', stack', input'⟩ := c
          have hl := step_length _ _ _ _ _ _ hs
          exact ih fuel' mode' stack' input' (by omega) (by omega)

namespace Main

/-! ## Lemmas on the pump -/

theorem readString_tail (t : Bytes) (h : 0x0A ∉ t) : readString t = (t, [], false) := by
  induction t with
  | nil => rfl
  | cons b t ih =>
    have hb : b ≠ 0x0A := fun e => h (by simp [e])
    have ht : 0x0A ∉ t := fun m => h (List.mem_cons_of_mem _ m)
    simp [readString, hb, ih ht]

theorem readString_line (l rest : Bytes) (h : 0x0A ∉ l) :
    readString (l ++ 0x0A :: rest) = (l ++ [0x0A], rest, true) := by
  induction l with
  | nil => simp [readString]
  | cons b l ih =>
    have hb : b ≠ 0x0A := fun e => h (by simp [e])
    have hl : 0x0A ∉ l := fun m => h (List.mem_cons_of_mem _ m)
    simp [readString, hb, ih hl]

theorem streamOf_nil (tail : Bytes) : streamOf [] tail = tail := by
  simp [streamOf]

theorem streamOf_cons (l : Bytes) (ls : List Bytes) (tail : Bytes) :
    streamOf (l :: ls) tail = l ++ 0x0A :: streamOf ls tail := by
  simp [streamOf]

theorem streamOf_append (ls ls' : List Bytes) (tail : Bytes) :
    streamOf (ls ++ ls') tail = streamOf ls (streamOf ls' tail) := by
  simp [streamOf]

/-- Every byte sequence is a sequence of complete lines followed by a tail
without a line feed. -/
theorem exists_streamOf (s : Bytes) :
    ∃ lines tail, s = streamOf lines tail ∧ (∀ l ∈ lines, 0x0A ∉ l) ∧ 0x0A ∉ tail := by
  induction s with
  | nil => exact ⟨[], [], rfl, by simp, by simp⟩
  | cons b s ih =>
    obtain ⟨lines, tail, hs, hl, ht⟩ := ih
    by_cases hb : b = 0x0A
    · refine ⟨[] :: lines, tail, ?_, ?_, ht⟩
      · rw [streamOf_cons, hs, hb]; rfl
      · intro l hm
        rcases List.mem_cons.1 hm with e | m
        · simp [e]
        · exact hl l m
    · cases lines with
      | nil =>
        refine ⟨[], b :: tail, ?_, by simp, ?_⟩
        · rw [streamOf_nil] at hs ⊢; rw [hs]
        · intro m
          rcases List.mem_cons.1 m with e | m
          · exact hb e.symm
          · exact ht m
      | cons l ls =>
        refine ⟨(b :: l) :: ls, tail, ?_, ?_, ht⟩
        · rw [streamOf_cons] at hs ⊢; rw [hs]; rfl
        · intro l' hm
          rcases List.mem_cons.1 hm with e | m
          · subst e
            intro m
            rcases List.mem_cons.1 m with e | m
            · exact hb e.symm
            · exact hl l (List.mem_cons_self _ _) m
          · exact hl l' (List.mem_cons_of_mem _ m)

theorem streamBody_emit {unmarshal : Bytes → Option LiteLLMResponse} {model line : Bytes}
    {r : OllamaResponse} (h : streamBody unmarshal model line = .emit r) :
    r.done = false ∧ r.model = model ∧ r.message.role = utf8 "assistant"
      ∧ r.message.content ≠ [] := by
  unfold streamBody at h
  simp only at h
  repeat' split at h
  all_goals first
    | (injection h with h; subst h; exact ⟨rfl, rfl, rfl, by assumption⟩)
    | (exact absurd h (by simp))

/-- The loop on a body made of complete lines and a tail: it ends with enough
fuel, and the records it writes are those of the lines before the first one
that leaves the loop. -/
theorem streamLoop_streamOf (unmarshal : Bytes → Option LiteLLMResponse) (model : Bytes)
    (closing : ReadError) (sink : Nat → Bool) (lines : List Bytes) (tail : Bytes)
    (hl : ∀ l ∈ lines, 0x0A ∉ l) (ht : 0x0A ∉ tail) :
    ∀ fuel written, (streamOf lines tail).length < fuel →
      ∃ events,
        streamLoop unmarshal model closing sink fuel (streamOf lines tail) written
            = some (events, written + (attempted events).length)
          ∧ attempted events
            = (lines.takeWhile fun l => !endsLoop unmarshal model l).filterMap
                (lineRecord unmarshal model) := by
  induction lines with
  | nil =>
    intro fuel written hf
    cases fuel with
    | zero => simp at hf
    | succ fuel =>
      refine ⟨[.read tail (some closing)], ?_, ?_⟩
      · rw [streamOf_nil, streamLoop, readString_tail tail ht]; rfl
      · rfl
  | cons l ls ih =>
    intro fuel written hf
    have hl0 : 0x0A ∉ l := hl l (List.mem_cons_self _ _)
    have hls : ∀ l' ∈ ls, 0x0A ∉ l' := fun l' m => hl l' (List.mem_cons_of_mem _ m)
    cases fuel with
    | zero => simp at hf
    | succ fuel =>
      have hf' : (streamOf ls tail).length < fuel := by
        rw [streamOf_cons] at hf
        simp only [List.length_append, List.length_cons] at hf
        omega
      rw [streamOf_cons, streamLoop, readString_line l _ hl0]
      simp only [List.takeWhile_cons, endsLoop, lineRecord]
      cases hb : streamBody unmarshal model (l ++ [0x0A]) with
      | stop =>
        exact ⟨[.read (l ++ [0x0A]) none], by simp [attempted], by simp [attempted]⟩
      | next =>
        obtain ⟨events, he, ha⟩ := ih hls fuel written hf'
        refine ⟨.read (l ++ [0x0A]) none :: events, ?_, ?_⟩
        · simp [he, attempted]
        · simp [attempted, ha, hb, endsLoop, lineRecord]
      | emit r =>
        obtain ⟨events, he, ha⟩ := ih hls fuel (written + 1) hf'
        refine ⟨.read (l ++ [0x0A]) none :: .write r (sink written) :: .flush :: events, ?_, ?_⟩
        · simp [he, attempted]; omega
        · simp [attempted, ha, hb, endsLoop, lineRecord]

theorem attempted_append (a b : List Event) :
    attempted (a ++ b) = attempted a ++ attempted b := by
  induction a with
  | nil => rfl
  | cons e a ih => cases e <;> simp [attempted, ih]

theorem delivered_append (a b : List Event) :
    delivered (a ++ b) = delivered a ++ delivered b := by
  induction a with
  | nil => rfl
  | cons e a ih =>
    cases e with
    | read line err => simp [delivered, ih]
    | write r ok => cases ok <;> simp [delivered, ih]
    | flush => simp [delivered, ih]

theorem linesRead_append (a b : List Event) :
    linesRead (a ++ b) = linesRead a ++ linesRead b := by
  induction a with
  | nil => rfl
  | cons e a ih => cases e <;> simp [linesRead, ih]

theorem lineRecord_some {unmarshal : Bytes → Option LiteLLMResponse} {model l : Bytes}
    {r : OllamaResponse} (h : lineRecord unmarshal model l = some r) :
    r.done = false := by
  unfold lineRecord at h
  cases hb : streamBody unmarshal model (l ++ [0x0A]) with
  | emit r' =>
    rw [hb] at h
    cases h
    exact (streamBody_emit hb).1
  | next => rw [hb] at h; cases h
  | stop => rw [hb] at h; cases h

/-- The whole pump on a body made of complete lines and a tail. -/
theorem handleChatStream_streamOf (unmarshal : Bytes → Option LiteLLMResponse) (model : Bytes)
    (closing : ReadError) (sink : Nat → Bool) (lines : List Bytes) (tail : Bytes)
    (hl : ∀ l ∈ lines, 0x0A ∉ l) (ht : 0x0A ∉ tail) :
    ∃ events,
      handleChatStream unmarshal model ⟨streamOf lines tail, closing⟩ sink = some events
        ∧ attempted events
          = (lines.takeWhile fun l => !endsLoop unmarshal model l).filterMap
              (lineRecord unmarshal model) ++ [finalRecord model] := by
  obtain ⟨events, he, ha⟩ :=
    streamLoop_streamOf unmarshal model closing sink lines tail hl ht
      ((streamOf lines tail).length + 1) 0 (Nat.lt_succ_self _)
  refine ⟨events ++ [.write (finalRecord model) (sink (0 + (attempted events).length)), .flush],
    ?_, ?_⟩
  · simp only [handleChatStream, he]
  · rw [attempted_append, ha]; rfl

/-- With a sink that accepts every write, every record passed to the writer is
delivered. -/
theorem streamLoop_delivered (unmarshal : Bytes → Option LiteLLMResponse) (model : Bytes)
    (closing : ReadError) (sink : Nat → Bool) (hs : ∀ k, sink k = true) :
    ∀ fuel rest written r,
      streamLoop unmarshal model closing sink fuel rest written = some r →
        delivered r.1 = attempted r.1 := by
  intro fuel
  induction fuel with
  | zero => intro rest written r h; simp [streamLoop] at h
  | succ fuel ih =>
    intro rest written r h
    rw [streamLoop] at h
    rcases hr : readString rest with ⟨line, rest', ok⟩
    rw [hr] at h
    cases ok with
    | false =>
      simp only [Option.some.injEq] at h
      subst h
      rfl
    | true =>
      simp only at h
      cases hb : streamBody unmarshal model line with
      | stop =>
        rw [hb] at h
        simp only [Option.some.injEq] at h
        subst h
        rfl
      | next =>
        rw [hb] at h
        simp only [Option.map_eq_some'] at h
        obtain ⟨r', hr', e⟩ := h
        subst e
        simpa [delivered, attempted] using ih _ _ _ hr'
      | emit resp =>
        rw [hb] at h
        simp only [Option.map_eq_some'] at h
        obtain ⟨r', hr', e⟩ := h
        subst e
        simpa [delivered, attempted, hs] using ih _ _ _ hr'

/-- The records passed to the writer and the lines read do not depend on what
the writes return. -/
theorem streamLoop_sink_irrelevant (unmarshal : Bytes → Option LiteLLMResponse)
    (model : Bytes) (closing : ReadError) (sink sink' : Nat → Bool) :
    ∀ fuel rest written written',
      (streamLoop unmarshal model closing sink fuel rest written).map
          (fun r => (attempted r.1, linesRead r.1))
        = (streamLoop unmarshal model closing sink' fuel rest written').map
          (fun r => (attempted r.1, linesRead r.1)) := by
  intro fuel
  induction fuel with
  | zero => intro rest written written'; simp [streamLoop]
  | succ fuel ih =>
    intro rest written written'
    rw [streamLoop, streamLoop]
    rcases hr : readString rest with ⟨line, rest', ok⟩
    cases ok with
    | false => simp [attempted, linesRead]
    | true =>
      simp only
      cases hb : streamBody unmarshal model line with
      | stop => simp [attempted, linesRead]
      | next =>
        have := ih rest' written written'
        simp only [Option.map_map] at this ⊢
        cases h₁ : streamLoop unmarshal model closing sink fuel rest' written <;>
          cases h₂ : streamLoop unmarshal model closing sink' fuel rest' written' <;>
          simp_all [attempted, linesRead]
      | emit resp =>
        have := ih rest' (written + 1) (written' + 1)
        simp only [Option.map_map] at this ⊢
        cases h₁ : streamLoop unmarshal model closing sink fuel rest' (written + 1) <;>
          cases h₂ : streamLoop unmarshal model closing sink' fuel rest' (written' + 1) <;>
          simp_all [attempted, linesRead]

theorem streamBody_eq (unmarshal : Bytes → Option LiteLLMResponse) (model line : Bytes) :
    streamBody unmarshal model line
      = if trimSpace line = [] then .next
        else if payload line = utf8 "[DONE]" then .stop
        else
          match unmarshal (payload line) with
          | none => .next
          | some liteLLMResp =>
            match liteLLMResp.choices with
            | [] => .next
            | choice :: _ =>
              if choice.delta.content ≠ [] then
                .emit { model := model
                        message := { content := choice.delta.content, role := utf8 "assistant" }
                        done := false }
              else .next := rfl

theorem payload_eq_done_iff (line : Bytes) :
    payload line = utf8 "[DONE]"
      ↔ trimSpace line = utf8 "data: [DONE]" ∨ trimSpace line = utf8 "[DONE]" := by
  constructor
  · intro h
    unfold payload at h
    simp only at h
    by_cases hp : hasPrefix (trimSpace line) (utf8 "data: ") = true
    · left
      rw [if_pos hp, trimPrefix, if_pos hp] at h
      rw [hasPrefix_eq_append _ _ hp, h]
      decide
    · right
      rw [if_neg hp] at h
      exact h
  · intro h
    unfold payload
    rcases h with h | h <;> rw [h] <;> decide

theorem payload_of_blank (line : Bytes) (h : trimSpace line = []) : payload line = [] := by
  unfold payload
  rw [h]
  decide

theorem endsLoop_iff (unmarshal : Bytes → Option LiteLLMResponse) (model l : Bytes) :
    endsLoop unmarshal model l = true ↔ SentinelLine l := by
  unfold endsLoop SentinelLine
  rw [decide_eq_true_eq, ← payload_eq_done_iff, streamBody_eq]
  constructor
  · intro h
    by_contra hd
    rw [if_neg hd] at h
    repeat' split at h
    all_goals exact absurd h (by simp)
  · intro h
    have h0 : trimSpace (l ++ [0x0A]) ≠ [] := by
      intro h0
      rw [payload_of_blank _ h0] at h
      exact absurd h (by decide)
    rw [if_neg h0, if_pos h]

theorem streamBody_malformed (unmarshal : Bytes → Option LiteLLMResponse) (model line : Bytes)
    (hdone : payload line ≠ utf8 "[DONE]") (hbad : unmarshal (payload line) = none) :
    streamBody unmarshal model line = .next := by
  rw [streamBody_eq]
  by_cases h0 : trimSpace line = []
  · rw [if_pos h0]
  · rw [if_neg h0, if_neg hdone, hbad]

theorem lineRecord_isSome (unmarshal : Bytes → Option LiteLLMResponse) (model l : Bytes)
    (hempty : unmarshal [] = none) (hns : ¬ SentinelLine l) :
    (lineRecord unmarshal model l).isSome = firstChoiceHasContent unmarshal l := by
  have hd : payload (l ++ [0x0A]) ≠ utf8 "[DONE]" := fun h =>
    hns ((payload_eq_done_iff _).1 h)
  unfold lineRecord firstChoiceHasContent
  rw [streamBody_eq]
  by_cases h0 : trimSpace (l ++ [0x0A]) = []
  · rw [if_pos h0, payload_of_blank _ h0, hempty]
    rfl
  · rw [if_neg h0, if_neg hd]
    cases hu : unmarshal (payload (l ++ [0x0A])) with
    | none => rfl
    | some resp =>
      obtain ⟨choices⟩ := resp
      cases choices with
      | nil => rfl
      | cons c cs =>
        by_cases hne : c.delta.content = []
        · simp [hne]
        · simp [hne]

theorem takeWhile_append_stop {α : Type} (p : α → Bool) (pre post : List α) (s : α)
    (hpre : ∀ a ∈ pre, p a = true) (hs : p s = false) :
    (pre ++ s :: post).takeWhile p = pre := by
  induction pre with
  | nil => simp [List.takeWhile, hs]
  | cons a pre ih =>
    have ha : p a = true := hpre a (List.mem_cons_self _ _)
    have := ih fun b m => hpre b (List.mem_cons_of_mem _ m)
    simp [List.takeWhile, ha, this]

theorem filterMap_takeWhile_insert {α β : Type} (p : α → Bool) (f : α → Option β)
    (pre post : List α) (m : α) (hp : p m = true) (hf : f m = none) :
    ((pre ++ m :: post).takeWhile p).filterMap f = ((pre ++ post).takeWhile p).filterMap f := by
  induction pre with
  | nil => simp [List.takeWhile, hp, hf]
  | cons a pre ih =>
    by_cases ha : p a = true
    · simp only [List.cons_append, List.takeWhile_cons, ha, if_true, List.filterMap_cons, ih]
    · simp [List.takeWhile, ha]

theorem length_filterMap_eq_length_filter {α β : Type} (f : α → Option β) (q : α → Bool)
    (xs : List α) (h : ∀ a ∈ xs, (f a).isSome = q a) :
    (xs.filterMap f).length = (xs.filter q).length := by
  induction xs with
  | nil => rfl
  | cons a xs ih =>
    have ha := h a (List.mem_cons_self _ _)
    have := ih fun b m => h b (List.mem_cons_of_mem _ m)
    cases hfa : f a with
    | none =>
      rw [hfa] at ha
      simp [List.filterMap_cons, hfa, List.filter_cons, ← ha, this]
    | some b =>
      rw [hfa] at ha
      simp [List.filterMap_cons, hfa, List.filter_cons, ← ha, this]

/-! ## The streaming pump: the claims -/

/-- C1: for every upstream body (any bytes, ended by EOF or by a read error)
and every sink, the pump ends, and the records it passes to the writer are
records with `done` false followed by one last record, the only one with
`done` true, that has empty content and role `assistant`; a sink that accepts
every write receives all of them. -/
theorem handleChatStream_one_final_record (unmarshal : Bytes → Option LiteLLMResponse)
    (model : Bytes) (body : Upstream) (sink : Nat → Bool) :
    ∃ events partials,
      handleChatStream unmarshal model body sink = some events
        ∧ attempted events
          = partials ++ [{ model := model
                           message := { role := utf8 "assistant", content := [] }
                           done := true }]
        ∧ (∀ r ∈ partials, r.done = false)
        ∧ (attempted events).countP (fun r => r.done) = 1
        ∧ ((∀ k, sink k = true) → delivered events = attempted events) := by
  obtain ⟨data, closing⟩ := body
  obtain ⟨lines, tail, hs, hl, ht⟩ := exists_streamOf data
  subst hs
  obtain ⟨events, he, ha⟩ :=
    streamLoop_streamOf unmarshal model closing sink lines tail hl ht
      ((streamOf lines tail).length + 1) 0 (Nat.lt_succ_self _)
  have hp : ∀ r ∈ attempted events, r.done = false := by
    intro r hr
    rw [ha] at hr
    obtain ⟨l, _, hlr⟩ := List.mem_filterMap.1 hr
    exact lineRecord_some hlr
  refine ⟨events ++ [.write (finalRecord model) (sink (0 + (attempted events).length)), .flush],
    attempted events, ?_, ?_, hp, ?_, ?_⟩
  · simp only [handleChatStream, he]
  · rw [attempted_append]; rfl
  · rw [attempted_append, List.countP_append]
    have h0 : (attempted events).countP (fun r => r.done) = 0 := by
      rw [List.countP_eq_zero]
      intro r hr
      simp [hp r hr]
    rw [h0]
    rfl
  · intro hk
    rw [attempted_append, delivered_append,
      streamLoop_delivered unmarshal model closing sink hk _ _ _ _ he]
    simp [delivered, attempted, hk]

/-- C2, as stated, fails: with a line whose first choice has empty content and
whose second choice has content `B`, the pump writes no record with `done`
false although one line has a choice with content; and with a content line
after the sentinel, the pump writes no record with `done` false either. -/
theorem handleChatStream_count_counterexample :
    (handleChatStream unmarshalLiteLLMResponse (utf8 "m") ⟨streamOf [twoChoicesLine] [], .eof⟩
        (fun _ => true)).map (fun events => ((attempted events).filter fun r => !r.done).length)
      = some 0
    ∧ ([twoChoicesLine].filter (someChoiceHasContent unmarshalLiteLLMResponse)).length = 1
    ∧ (handleChatStream unmarshalLiteLLMResponse (utf8 "m")
        ⟨streamOf [utf8 "data: [DONE]", deltaLine "C"] [], .eof⟩
        (fun _ => true)).map (fun events => ((attempted events).filter fun r => !r.done).length)
      = some 0
    ∧ ([utf8 "data: [DONE]", deltaLine "C"].filter
        (someChoiceHasContent unmarshalLiteLLMResponse)).length = 1 := by
  set_option maxRecDepth 100000 in decide

/-- C2, amended: for a decoder that rejects the empty input, as `json.Unmarshal`
does, and any body made of complete lines and a tail, the number of records
with `done` false that the pump passes to the writer is the number of lines
before the first sentinel line whose parsed delta has a first choice with
non-empty incremental content. -/
theorem handleChatStream_partial_count (unmarshal : Bytes → Option LiteLLMResponse)
    (model : Bytes) (closing : ReadError) (sink : Nat → Bool) (lines : List Bytes)
    (tail : Bytes) (hempty : unmarshal [] = none) (hl : ∀ l ∈ lines, 0x0A ∉ l)
    (ht : 0x0A ∉ tail) :
    ∃ events,
      handleChatStream unmarshal model ⟨streamOf lines tail, closing⟩ sink = some events
        ∧ ((attempted events).filter fun r => !r.done).length
          = ((lines.takeWhile fun l => decide (¬ SentinelLine l)).filter
              (firstChoiceHasContent unmarshal)).length := by
  obtain ⟨events, he, ha⟩ :=
    handleChatStream_streamOf unmarshal model closing sink lines tail hl ht
  refine ⟨events, he, ?_⟩
  have hw : (fun l => !endsLoop unmarshal model l) = fun l => decide (¬ SentinelLine l) := by
    funext l
    by_cases h : SentinelLine l
    · simp [h, (endsLoop_iff unmarshal model l).2 h]
    · have : endsLoop unmarshal model l = false := by
        cases hb : endsLoop unmarshal model l with
        | false => rfl
        | true => exact absurd ((endsLoop_iff unmarshal model l).1 hb) h
      simp [h, this]
  rw [ha, hw, List.filter_append]
  have hkeep :
      (((lines.takeWhile fun l => decide (¬ SentinelLine l)).filterMap
          (lineRecord unmarshal model)).filter fun r => !r.done)
        = (lines.takeWhile fun l => decide (¬ SentinelLine l)).filterMap
            (lineRecord unmarshal model) := by
    rw [List.filter_eq_self]
    intro r hr
    obtain ⟨l, _, hlr⟩ := List.mem_filterMap.1 hr
    simp [lineRecord_some hlr]
  rw [hkeep]
  have hfinal : ([finalRecord model].filter fun r => !r.done) = [] := rfl
  rw [hfinal, List.append_nil]
  apply length_filterMap_eq_length_filter
  intro l hm
  have hns : ¬ SentinelLine l := by
    have := (List.mem_takeWhile_imp hm)
    simpa using this
  exact lineRecord_isSome unmarshal model l hempty hns

/-- Witness of C2, amended: three lines, of which the first has content in its
first choice, the second only in its second choice and the third is the
sentinel, and a tail with content that has no line feed: one record. -/
theorem handleChatStream_partial_count_witness :
    unmarshalLiteLLMResponse [] = none
      ∧ (∀ l ∈ [deltaLine "A",
                twoChoicesLine,
                utf8 "data: [DONE]"], 0x0A ∉ l)
      ∧ 0x0A ∉ deltaLine "Z"
      ∧ ∃ events,
          handleChatStream unmarshalLiteLLMResponse (utf8 "m")
              ⟨streamOf
                [deltaLine "A",
                 twoChoicesLine,
                 utf8 "data: [DONE]"]
                (deltaLine "Z"), .eof⟩
              (fun _ => true) = some events
            ∧ ((attempted events).filter fun r => !r.done).length = 1 := by
  refine ⟨by decide, by decide, by decide, ?_⟩
  obtain ⟨events, he, hc⟩ :=
    handleChatStream_partial_count unmarshalLiteLLMResponse (utf8 "m") .eof (fun _ => true)
      [deltaLine "A",
       twoChoicesLine,
       utf8 "data: [DONE]"]
      (deltaLine "Z")
      (by decide) (by decide) (by decide)
  refine ⟨events, he, ?_⟩
  rw [hc]
  set_option maxRecDepth 100000 in decide

theorem wire_append (marshal : OllamaResponse → Bytes) (a b : List OllamaResponse) :
    wire marshal (a ++ b) = wire marshal a ++ wire marshal b := by
  simp [wire]

/-- C3: when a body has complete lines without a sentinel, then a sentinel
line (trimmed content `data: [DONE]` or `[DONE]`) that ends the body or is
followed by a line feed and any bytes, the pump passes to the writer the
records of the lines before the sentinel and then the one final record, and
nothing for the sentinel and what follows it; the bytes on the wire are the
marshalled records, one per line. -/
theorem handleChatStream_stops_at_sentinel (unmarshal : Bytes → Option LiteLLMResponse)
    (model : Bytes) (closing : ReadError) (sink : Nat → Bool) (pre : List Bytes)
    (s rest : Bytes) (hpre : ∀ l ∈ pre, 0x0A ∉ l ∧ ¬ SentinelLine l) (hs : 0x0A ∉ s)
    (hsent : SentinelLine s) (hrest : rest = [] ∨ ∃ after, rest = 0x0A :: after) :
    ∃ events,
      handleChatStream unmarshal model ⟨streamOf pre (s ++ rest), closing⟩ sink = some events
        ∧ attempted events
          = pre.filterMap (lineRecord unmarshal model)
            ++ [{ model := model
                  message := { role := utf8 "assistant", content := [] }
                  done := true }]
        ∧ ∀ marshal : OllamaResponse → Bytes,
            wire marshal (attempted events)
              = wire marshal (pre.filterMap (lineRecord unmarshal model))
                ++ (marshal { model := model
                              message := { role := utf8 "assistant", content := [] }
                              done := true } ++ [0x0A]) := by
  have hkeep : ∀ l ∈ pre, (!endsLoop unmarshal model l) = true := by
    intro l hm
    cases hb : endsLoop unmarshal model l with
    | false => rfl
    | true => exact absurd ((endsLoop_iff unmarshal model l).1 hb) (hpre l hm).2
  have hfin :
      ∀ events,
        attempted events
            = pre.filterMap (lineRecord unmarshal model) ++ [finalRecord model] →
          ∀ marshal : OllamaResponse → Bytes,
            wire marshal (attempted events)
              = wire marshal (pre.filterMap (lineRecord unmarshal model))
                ++ (marshal (finalRecord model) ++ [0x0A]) := by
    intro events ha marshal
    rw [ha, wire_append]
    simp [wire]
  rcases hrest with hrest | ⟨after, hrest⟩
  · subst hrest
    rw [List.append_nil]
    obtain ⟨events, he, ha⟩ :=
      handleChatStream_streamOf unmarshal model closing sink pre s (fun l hm => (hpre l hm).1) hs
    rw [List.takeWhile_eq_self_iff.2 hkeep] at ha
    exact ⟨events, he, ha, hfin events ha⟩
  · subst hrest
    obtain ⟨lines, tail, hr, hl, ht⟩ := exists_streamOf after
    subst hr
    have hall : ∀ l ∈ pre ++ [s] ++ lines, 0x0A ∉ l := by
      intro l hm
      simp only [List.mem_append, List.mem_singleton] at hm
      rcases hm with (hm | hm) | hm
      · exact (hpre l hm).1
      · rw [hm]; exact hs
      · exact hl l hm
    obtain ⟨events, he, ha⟩ :=
      handleChatStream_streamOf unmarshal model closing sink (pre ++ [s] ++ lines) tail hall ht
    have hshape :
        streamOf (pre ++ [s] ++ lines) tail = streamOf pre (s ++ 0x0A :: streamOf lines tail) := by
      rw [List.append_assoc, streamOf_append, List.singleton_append, streamOf_cons]
    rw [hshape] at he
    have htake :
        (pre ++ [s] ++ lines).takeWhile (fun l => !endsLoop unmarshal model l) = pre := by
      rw [List.append_assoc, List.singleton_append]
      apply takeWhile_append_stop _ _ _ _ hkeep
      simp [(endsLoop_iff unmarshal model s).2 hsent]
    rw [htake] at ha
    exact ⟨events, he, ha, hfin events ha⟩

/-- Witness of C3, the scenario of the spec: the line with content `A`, then
`data: [DONE]`, each with its line feed, gives one record with `done` false
and content `A`, then the record with `done` true. -/
theorem handleChatStream_stops_at_sentinel_witness :
    (∀ l ∈ [deltaLine "A"], 0x0A ∉ l ∧ ¬ SentinelLine l)
      ∧ 0x0A ∉ utf8 "data: [DONE]"
      ∧ SentinelLine (utf8 "data: [DONE]")
      ∧ streamOf [deltaLine "A"] (utf8 "data: [DONE]" ++ [0x0A])
          = deltaLine "A" ++ utf8 "\ndata: [DONE]\n"
      ∧ ∃ events,
          handleChatStream unmarshalLiteLLMResponse (utf8 "m")
              ⟨streamOf [deltaLine "A"] (utf8 "data: [DONE]" ++ [0x0A]), .eof⟩
              (fun _ => true) = some events
            ∧ attempted events
              = [{ model := utf8 "m"
                   message := { role := utf8 "assistant", content := utf8 "A" }
                   done := false },
                 { model := utf8 "m"
                   message := { role := utf8 "assistant", content := [] }
                   done := true }] := by
  refine ⟨by decide, by decide, by decide, by decide, ?_⟩
  obtain ⟨events, he, ha, _⟩ :=
    handleChatStream_stops_at_sentinel unmarshalLiteLLMResponse (utf8 "m") .eof (fun _ => true)
      [deltaLine "A"] (utf8 "data: [DONE]") [0x0A]
      (by decide) (by decide) (by decide) (Or.inr ⟨[], rfl⟩)
  refine ⟨events, he, ?_⟩
  rw [ha]
  set_option maxRecDepth 100000 in decide

/-- C4: a line that is not the sentinel and that the decoder rejects can be
inserted after any number of complete lines of a body without changing the
records that the pump passes to the writer, nor the bytes on the wire: the
line is skipped and the lines after it are treated as before. -/
theorem handleChatStream_skips_malformed (unmarshal : Bytes → Option LiteLLMResponse)
    (model : Bytes) (closing : ReadError) (sink : Nat → Bool) (pre : List Bytes)
    (m rest : Bytes) (hpre : ∀ l ∈ pre, 0x0A ∉ l) (hm : 0x0A ∉ m)
    (hdone : payload (m ++ [0x0A]) ≠ utf8 "[DONE]")
    (hbad : unmarshal (payload (m ++ [0x0A])) = none) :
    ∃ events events',
      handleChatStream unmarshal model ⟨streamOf (pre ++ [m]) rest, closing⟩ sink = some events
        ∧ handleChatStream unmarshal model ⟨streamOf pre rest, closing⟩ sink = some events'
        ∧ attempted events = attempted events'
        ∧ ∀ marshal : OllamaResponse → Bytes,
            wire marshal (attempted events) = wire marshal (attempted events') := by
  obtain ⟨lines, tail, hr, hl, ht⟩ := exists_streamOf rest
  subst hr
  have hall : ∀ l ∈ pre ++ [m] ++ lines, 0x0A ∉ l := by
    intro l hmem
    simp only [List.mem_append, List.mem_singleton] at hmem
    rcases hmem with (hmem | hmem) | hmem
    · exact hpre l hmem
    · rw [hmem]; exact hm
    · exact hl l hmem
  have hall' : ∀ l ∈ pre ++ lines, 0x0A ∉ l := by
    intro l hmem
    rcases List.mem_append.1 hmem with hmem | hmem
    · exact hpre l hmem
    · exact hl l hmem
  obtain ⟨events, he, ha⟩ :=
    handleChatStream_streamOf unmarshal model closing sink (pre ++ [m] ++ lines) tail hall ht
  obtain ⟨events', he', ha'⟩ :=
    handleChatStream_streamOf unmarshal model closing sink (pre ++ lines) tail hall' ht
  rw [streamOf_append] at he he'
  have hnext := streamBody_malformed unmarshal model (m ++ [0x0A]) hdone hbad
  have heq : attempted events = attempted events' := by
    rw [ha, ha', List.append_assoc, List.singleton_append]
    congr 1
    apply filterMap_takeWhile_insert
    · simp [endsLoop, hnext]
    · simp [lineRecord, hnext]
  exact ⟨events, events', he, he', heq, fun marshal => by rw [heq]⟩

/-- Witness of C4: a line that is not JSON between two content lines. -/
theorem handleChatStream_skips_malformed_witness :
    (∀ l ∈ [deltaLine "A"], 0x0A ∉ l)
      ∧ 0x0A ∉ truncatedLine
      ∧ payload (truncatedLine ++ [0x0A]) ≠ utf8 "[DONE]"
      ∧ unmarshalLiteLLMResponse (payload (truncatedLine ++ [0x0A])) = none
      ∧ ∃ events events',
          handleChatStream unmarshalLiteLLMResponse (utf8 "m")
              ⟨streamOf
                ([deltaLine "A"]
                  ++ [truncatedLine])
                (deltaLine "B" ++ [0x0A]), .eof⟩
              (fun _ => true) = some events
            ∧ handleChatStream unmarshalLiteLLMResponse (utf8 "m")
              ⟨streamOf
                [deltaLine "A"]
                (deltaLine "B" ++ [0x0A]), .eof⟩
              (fun _ => true) = some events'
            ∧ attempted events = attempted events'
            ∧ attempted events'
              = [{ model := utf8 "m"
                   message := { role := utf8 "assistant", content := utf8 "A" }
                   done := false },
                 { model := utf8 "m"
                   message := { role := utf8 "assistant", content := utf8 "B" }
                   done := false },
                 { model := utf8 "m"
                   message := { role := utf8 "assistant", content := [] }
                   done := true }] := by
  refine ⟨by decide, by decide, by decide, by decide, ?_⟩
  obtain ⟨events, events', he, he', ha, _⟩ :=
    handleChatStream_skips_malformed unmarshalLiteLLMResponse (utf8 "m") .eof (fun _ => true)
      [deltaLine "A"]
      (truncatedLine)
      (deltaLine "B" ++ [0x0A])
      (by decide) (by decide) (by decide) (by decide)
  refine ⟨events, events', he, he', ha, ?_⟩
  have hev :
      (handleChatStream unmarshalLiteLLMResponse (utf8 "m")
          ⟨streamOf
            [deltaLine "A"]
            (deltaLine "B" ++ [0x0A]), .eof⟩
          (fun _ => true)).map attempted
        = some [{ model := utf8 "m"
                  message := { role := utf8 "assistant", content := utf8 "A" }
                  done := false },
                { model := utf8 "m"
                  message := { role := utf8 "assistant", content := utf8 "B" }
                  done := false },
                { model := utf8 "m"
                  message := { role := utf8 "assistant", content := [] }
                  done := true }] := by
    set_option maxRecDepth 100000 in decide
  rw [he'] at hev
  simpa using hev

/-- C9, as stated, fails: with a sink that refuses every write and a body of
two content lines, the pump reads the second line and the end of the body
after the first failed write, and passes the second record to the writer. -/
theorem handleChatStream_continues_after_failed_write :
    handleChatStream unmarshalLiteLLMResponse (utf8 "m")
        ⟨streamOf [deltaLine "A", deltaLine "B"] [], .eof⟩
        (fun _ => false)
      = some
        [.read (deltaLine "A" ++ [0x0A]) none,
         .write { model := utf8 "m"
                  message := { role := utf8 "assistant", content := utf8 "A" }
                  done := false } false,
         .flush,
         .read (deltaLine "B" ++ [0x0A]) none,
         .write { model := utf8 "m"
                  message := { role := utf8 "assistant", content := utf8 "B" }
                  done := false } false,
         .flush,
         .read [] (some .eof),
         .write { model := utf8 "m"
                  message := { role := utf8 "assistant", content := [] }
                  done := true } false,
         .flush]
    ∧ (handleChatStream unmarshalLiteLLMResponse (utf8 "m")
        ⟨streamOf [deltaLine "A", deltaLine "B"] [], .eof⟩
        (fun _ => false)).map stopsAtFailedWrite = some false := by
  set_option maxRecDepth 100000 in decide

/-- C9, amended: the pump discards what the writes return. For every body and
any two sinks, the pump ends, reads the same lines and passes the same records
to the writer: a failed write changes neither the lines read after it nor the
records written after it, and the final record is still attempted. -/
theorem handleChatStream_ignores_write_errors (unmarshal : Bytes → Option LiteLLMResponse)
    (model : Bytes) (body : Upstream) (sink sink' : Nat → Bool) :
    ∃ events events',
      handleChatStream unmarshal model body sink = some events
        ∧ handleChatStream unmarshal model body sink' = some events'
        ∧ attempted events = attempted events'
        ∧ linesRead events = linesRead events'
        ∧ (attempted events).getLast? = some (finalRecord model) := by
  obtain ⟨data, closing⟩ := body
  obtain ⟨lines, tail, hs, hl, ht⟩ := exists_streamOf data
  subst hs
  obtain ⟨ev, he, _⟩ :=
    streamLoop_streamOf unmarshal model closing sink lines tail hl ht
      ((streamOf lines tail).length + 1) 0 (Nat.lt_succ_self _)
  obtain ⟨ev', he', _⟩ :=
    streamLoop_streamOf unmarshal model closing sink' lines tail hl ht
      ((streamOf lines tail).length + 1) 0 (Nat.lt_succ_self _)
  have hsame :=
    streamLoop_sink_irrelevant unmarshal model closing sink sink'
      ((streamOf lines tail).length + 1) (streamOf lines tail) 0 0
  rw [he, he'] at hsame
  simp only [Option.map_some', Option.some.injEq, Prod.mk.injEq] at hsame
  refine ⟨ev ++ [.write (finalRecord model) (sink (0 + (attempted ev).length)), .flush],
    ev' ++ [.write (finalRecord model) (sink' (0 + (attempted ev').length)), .flush],
    ?_, ?_, ?_, ?_, ?_⟩
  · simp only [handleChatStream, he]
  · simp only [handleChatStream, he']
  · rw [attempted_append, attempted_append, hsame.1]; rfl
  · rw [linesRead_append, linesRead_append, hsame.2]; rfl
  · rw [attempted_append]
    simp [attempted]

end Main

/-! ## The translators of requests, responses and model lists -/

theorem foldl_set_enumFrom {α β : Type} (f : α → β) (xs : List α) :
    ∀ (k : Nat) (init : List β), init.length = k + xs.length →
      (xs.enumFrom k).foldl (fun acc im => acc.set im.1 (f im.2)) init
        = init.take k ++ xs.map f := by
  induction xs with
  | nil =>
    intro k init h
    simp only [List.length_nil, Nat.add_zero] at h
    simp [List.enumFrom, ← h]
  | cons x xs ih =>
    intro k init h
    simp only [List.length_cons] at h
    simp only [List.enumFrom, List.foldl_cons, List.map_cons]
    rw [ih (k + 1) (init.set k (f x)) (by simp [h]; omega)]
    have hk : k < init.length := by omega
    have : (init.set k (f x)).take (k + 1) = init.take k ++ [f x] := by
      apply List.ext_getElem?
      intro j
      by_cases hj : j < k
      · rw [List.getElem?_take_of_lt (by omega), List.getElem?_append_left (by simp; omega),
          List.getElem?_take_of_lt hj, List.getElem?_set_ne (by omega)]
      · by_cases hjk : j = k
        · subst hjk
          rw [List.getElem?_take_of_lt (by omega), List.getElem?_set_self hk,
            List.getElem?_append_right (by simp)]
          simp [Nat.min_eq_left (Nat.le_of_lt hk)]
        · rw [List.getElem?_eq_none (by simp; omega), List.getElem?_eq_none (by simp; omega)]
    rw [this, List.append_assoc, List.singleton_append]

namespace Main

theorem toOllamaModels_eq_map (modelResp : ModelResponse) :
    (toOllamaModels modelResp).models
      = modelResp.data.map fun m : ModelEntry =>
          ({ name := m.id, model := m.id, modifiedAt := [], size := 0, digest := [],
             details := [] } : OllamaModel) := by
  have h :=
    foldl_set_enumFrom
      (fun m : ModelEntry =>
        ({ name := m.id, model := m.id, modifiedAt := [], size := 0, digest := [],
           details := [] } : OllamaModel))
      modelResp.data 0
      (List.replicate modelResp.data.length
        { name := [], model := [], modifiedAt := [], size := 0, digest := [], details := [] })
      (by simp)
  simpa [toOllamaModels, List.enum] using h

/-- The non-streaming branch with an upstream response without choices: empty
content, role `assistant`, `done` true, and no error. -/
theorem handleChatNonStream_empty_choices (decode : Bytes → Option LiteLLMResponse)
    (model body : Bytes) (h : decode body = some { choices := [] }) :
    handleChatNonStream decode model body
      = .json { model := model
                message := { role := utf8 "assistant", content := [] }
                done := true } := by
  simp [handleChatNonStream, h]

/-- The outbound request of `handleChat`: the model, the messages and the
stream flag of the inbound request, unchanged. -/
theorem liteLLMRequest_eq (ollamaReq : GenerationRequest) :
    liteLLMRequest ollamaReq
      = { model := ollamaReq.model
          messages := ollamaReq.messages
          stream := ollamaReq.stream } := rfl

end Main

namespace Infrastructures

/-- The test vectors of RFC 4648 for `base64.StdEncoding`. -/
theorem encodeToString_vectors :
    encodeToString (utf8 "") = utf8 ""
      ∧ encodeToString (utf8 "f") = utf8 "Zg=="
      ∧ encodeToString (utf8 "fo") = utf8 "Zm8="
      ∧ encodeToString (utf8 "foo") = utf8 "Zm9v"
      ∧ encodeToString (utf8 "foob") = utf8 "Zm9vYg=="
      ∧ encodeToString (utf8 "fooba") = utf8 "Zm9vYmE="
      ∧ encodeToString (utf8 "foobar") = utf8 "Zm9vYmFy" := by
  decide

/-- The outbound request of the OpenAI variant keeps the model and the number
of messages; a message with role `user` stays a user message and every other
message becomes an assistant message with the text of the inbound message. -/
theorem toChatCompletionRequest_shape (r : ChatRequest) :
    (toChatCompletionRequest r).model = r.model
      ∧ (toChatCompletionRequest r).messages.length = r.messages.length
      ∧ ∀ i : Nat, (toChatCompletionRequest r).messages[i]?
          = (r.messages[i]?).map fun msg : Message =>
              if msg.role = utf8 "user" then
                ({ role := utf8 "user"
                   content :=
                     if msg.images = [] then [.text msg.content]
                     else msg.images.map fun v =>
                       .imageURL (utf8 "data:image/jpeg;base64," ++ encodeToString v) } :
                  MessageParam)
              else { role := utf8 "assistant", content := [.text msg.content] } := by
  refine ⟨rfl, by simp [toChatCompletionRequest], ?_⟩
  intro i
  simp only [toChatCompletionRequest, List.getElem?_map]
  cases r.messages[i]? with
  | none => rfl
  | some msg =>
    simp only [Option.map_some', Option.some.injEq]
    by_cases hu : msg.role = utf8 "user"
    · simp only [hu, if_true, userMessageParts]
      by_cases hi : msg.images = []
      · simp [hi]
      · simp [hi]
    · simp only [hu, if_false, assistantMessage]

/-- The method `Chat` on an upstream completion without choices panics. -/
theorem Chat_empty_choices (completions : ChatCompletionNewParams → Except Bytes ChatCompletion)
    (now : Int) (req : ChatRequest)
    (h : completions (toChatCompletionRequest req) = .ok { choices := [] }) :
    Chat completions now req
      = .panic (utf8 "runtime error: index out of range [0] with length 0") := by
  simp [Chat, h]

end Infrastructures

/-! ## The translators: the claims -/

/-- C5: on an upstream response without choices, the non-streaming branch of
`handleChat` answers with empty content, role `assistant` and `done` true,
but `OpenAIClient.Chat` panics on the index expression `tmp.Choices[0]`. -/
theorem empty_choices_translation :
    Main.handleChatNonStream Main.decodeLiteLLMResponseBody (utf8 "m") (utf8 "\x7b\"choices\":[]\x7d")
        = .json { model := utf8 "m"
                  message := { role := utf8 "assistant", content := [] }
                  done := true }
      ∧ Infrastructures.Chat (fun _ => .ok { choices := [] }) 0
          { model := utf8 "m"
            messages := [{ role := utf8 "user", content := utf8 "hi", images := [] }] }
        = .panic (utf8 "runtime error: index out of range [0] with length 0") := by
  decide

/-- C6: a message with role `system` leaves `toChatCompletionRequest` as a
message with role `assistant`, while the request built in `handleChat` keeps
the role; model, order, number of messages and text are kept by both. -/
theorem system_role_translation :
    Infrastructures.toChatCompletionRequest
        { model := utf8 "m"
          messages := [{ role := utf8 "system", content := utf8 "be brief", images := [] },
                       { role := utf8 "user", content := utf8 "hi", images := [] }] }
        = { model := utf8 "m"
            messages := [{ role := utf8 "assistant", content := [.text (utf8 "be brief")] },
                         { role := utf8 "user", content := [.text (utf8 "hi")] }] }
      ∧ Main.liteLLMRequest
          { model := utf8 "m"
            stream := false
            options := none
            keepAlive := []
            messages := some [{ role := utf8 "system", content := utf8 "be brief" },
                              { role := utf8 "user", content := utf8 "hi" }] }
        = { model := utf8 "m"
            messages := some [{ role := utf8 "system", content := utf8 "be brief" },
                              { role := utf8 "user", content := utf8 "hi" }]
            stream := false } := by
  decide

/-- C7: in the outbound request of the OpenAI variant, a message with role
`user` is a user message; with images its content parts are the image parts of
the images, in order, each with the URL `data:image/jpeg;base64,` followed by
the base64 encoding of the image; without images its content is one text part
with the content of the message. -/
theorem user_message_parts (r : Infrastructures.ChatRequest) (i : Nat)
    (msg : Infrastructures.Message) (hi : r.messages[i]? = some msg)
    (hu : msg.role = utf8 "user") :
    ∃ out,
      (Infrastructures.toChatCompletionRequest r).messages[i]? = some out
        ∧ out.role = utf8 "user"
        ∧ (msg.images ≠ [] →
            out.content.length = msg.images.length
              ∧ out.content
                = msg.images.map fun v =>
                    .imageURL
                      (utf8 "data:image/jpeg;base64," ++ Infrastructures.encodeToString v))
        ∧ (msg.images = [] → out.content = [.text msg.content]) := by
  have h := (Infrastructures.toChatCompletionRequest_shape r).2.2 i
  rw [hi] at h
  simp only [Option.map_some', hu, if_true] at h
  refine ⟨_, h, rfl, ?_, ?_⟩
  · intro hne
    simp [hne]
  · intro he
    simp [he]

/-- Witness of C7: a user message with two images, and one without. -/
theorem user_message_parts_witness :
    (Infrastructures.toChatCompletionRequest
        { model := utf8 "m"
          messages := [{ role := utf8 "user", content := utf8 "look",
                         images := [[0xFF, 0xD8, 0xFF], utf8 "foobar"] },
                       { role := utf8 "user", content := utf8 "hi", images := [] }] }).messages
      = [{ role := utf8 "user"
           content := [.imageURL (utf8 "data:image/jpeg;base64,/9j/"),
                       .imageURL (utf8 "data:image/jpeg;base64,Zm9vYmFy")] },
         { role := utf8 "user", content := [.text (utf8 "hi")] }]
      ∧ ∃ out,
          (Infrastructures.toChatCompletionRequest
              { model := utf8 "m"
                messages := [{ role := utf8 "user", content := utf8 "look",
                               images := [[0xFF, 0xD8, 0xFF], utf8 "foobar"] },
                             { role := utf8 "user", content := utf8 "hi", images := [] }] }).messages[0]?
            = some out
          ∧ out.role = utf8 "user"
          ∧ out.content.length = 2 := by
  refine ⟨by decide, ?_⟩
  obtain ⟨out, ho, hr, hc, _⟩ :=
    user_message_parts
      { model := utf8 "m"
        messages := [{ role := utf8 "user", content := utf8 "look",
                       images := [[0xFF, 0xD8, 0xFF], utf8 "foobar"] },
                     { role := utf8 "user", content := utf8 "hi", images := [] }] }
      0
      { role := utf8 "user", content := utf8 "look",
        images := [[0xFF, 0xD8, 0xFF], utf8 "foobar"] }
      rfl rfl
  exact ⟨out, ho, hr, (hc (by decide)).1⟩

/-- C8: the body that `handleChat` sends has the members `model` and
`messages`, and `stream` when it is true, and nothing else: it is the body of
the request without options and keep-alive, and the setting
`litellm_settings`, which the handler stores in the options of the inbound
request, is not in it. -/
theorem requestBody_without_settings (ollamaReq : Main.GenerationRequest) :
    Main.objectKeys (Main.requestBody ollamaReq)
        = [utf8 "model", utf8 "messages"] ++ (if ollamaReq.stream then [utf8 "stream"] else [])
      ∧ utf8 "litellm_settings" ∉ Main.objectKeys (Main.requestBody ollamaReq)
      ∧ utf8 "modify_params" ∉ Main.objectKeys (Main.requestBody ollamaReq)
      ∧ utf8 "options" ∉ Main.objectKeys (Main.requestBody ollamaReq)
      ∧ utf8 "keep_alive" ∉ Main.objectKeys (Main.requestBody ollamaReq)
      ∧ Main.requestBody ollamaReq
        = Main.requestBody { ollamaReq with options := none, keepAlive := [] }
      ∧ ((Main.injectSettings ollamaReq).options.getD []).map Prod.fst
        = ((ollamaReq.options.getD []).filter fun kv => kv.1 != utf8 "litellm_settings").map
            Prod.fst ++ [utf8 "litellm_settings"] := by
  have hk :
      Main.objectKeys (Main.requestBody ollamaReq)
        = [utf8 "model", utf8 "messages"]
          ++ (if ollamaReq.stream then [utf8 "stream"] else []) := by
    unfold Main.requestBody Main.marshalLiteLLMRequest Main.liteLLMRequest Main.injectSettings
      Main.objectKeys
    cases ollamaReq.stream <;> rfl
  refine ⟨hk, ?_, ?_, ?_, ?_, rfl, ?_⟩
  · rw [hk]; cases ollamaReq.stream <;> decide
  · rw [hk]; cases ollamaReq.stream <;> decide
  · rw [hk]; cases ollamaReq.stream <;> decide
  · rw [hk]; cases ollamaReq.stream <;> decide
  · simp [Main.injectSettings, Main.mapSet]

/-- C10, as stated, fails for `Handlers.Tags`: two upstream lists with the same
id and different creation times give different `modifiedAt`. -/
theorem Tags_modifiedAt_counterexample :
    Handlers.Tags Handlers.utc
        (.ok [{ id := utf8 "gpt-x", created := 1700000000, object := utf8 "model",
                ownedBy := utf8 "openai" }])
        = .ok [{ name := utf8 "gpt-x", model := utf8 "gpt-x", modifiedAt := 1700000000,
                 size := 0, digest := utf8 "dummy", details := .zero }]
      ∧ Handlers.Tags Handlers.utc
          (.ok [{ id := utf8 "gpt-x", created := 5, object := utf8 "model",
                  ownedBy := utf8 "openai" }])
        = .ok [{ name := utf8 "gpt-x", model := utf8 "gpt-x", modifiedAt := 5,
                 size := 0, digest := utf8 "dummy", details := .zero }] := by
  decide

/-- C10, amended: `handleListModels` keeps the length and the order of the
upstream list, sets name and model of the i-th summary to the i-th upstream id
and the other fields to fixed values (empty time, size 0, empty digest, empty
details). `Handlers.Tags`, in every zone of the server, does the same with
size 0, digest `dummy`, empty details and the time of modification set to the
creation time of the upstream model, when every creation time is in the years
0 to 9999 of that zone; when one is not, it sends status 200 and no body. -/
theorem model_list_translation (loc : Handlers.Location) (tmp : List Handlers.Model)
    (modelResp : Main.ModelResponse) :
    ((∀ item ∈ tmp,
          -62167219200 ≤ item.created + loc.offset item.created
            ∧ item.created + loc.offset item.created < 253402300800) →
        ∃ out,
          Handlers.Tags loc (.ok tmp) = .ok out
            ∧ out.length = tmp.length
            ∧ ∀ i : Nat, out[i]?
                = (tmp[i]?).map fun item : Handlers.Model =>
                    ({ name := item.id, model := item.id, modifiedAt := item.created,
                       size := 0, digest := utf8 "dummy", details := .zero } :
                      Handlers.ListModelResponse))
      ∧ ((∃ item ∈ tmp,
            ¬ (-62167219200 ≤ item.created + loc.offset item.created
              ∧ item.created + loc.offset item.created < 253402300800)) →
          Handlers.Tags loc (.ok tmp) = .emptyBody)
      ∧ (Main.toOllamaModels modelResp).models.length = modelResp.data.length
      ∧ ∀ i : Nat, (Main.toOllamaModels modelResp).models[i]?
          = (modelResp.data[i]?).map fun m : Main.ModelEntry =>
              ({ name := m.id, model := m.id, modifiedAt := [], size := 0, digest := [],
                 details := [] } : Main.OllamaModel) := by
  refine ⟨?_, ?_, ?_, ?_⟩
  · intro h
    refine ⟨tmp.map fun item : Handlers.Model =>
        ({ name := item.id, model := item.id, modifiedAt := item.created,
           size := 0, digest := utf8 "dummy", details := .zero } :
          Handlers.ListModelResponse), ?_, by simp, fun i => by simp⟩
    simp only [Handlers.Tags]
    rw [if_pos]
    simp only [List.all_eq_true, List.mem_map]
    rintro m ⟨item, hm, rfl⟩
    simpa [Handlers.marshalableTime, Handlers.yearZero, Handlers.yearTenThousand]
      using h item hm
  · rintro ⟨item, hm, hbad⟩
    simp only [Handlers.Tags]
    rw [if_neg]
    intro hall
    simp only [List.all_eq_true, List.mem_map] at hall
    have := hall _ ⟨item, hm, rfl⟩
    exact hbad (by
      simpa [Handlers.marshalableTime, Handlers.yearZero, Handlers.yearTenThousand]
        using this)
  · rw [Main.toOllamaModels_eq_map]; simp
  · intro i
    rw [Main.toOllamaModels_eq_map]; simp

/-- Witness of C10, amended: in the zone UTC, a list with a creation time of
the year 2023 gives its summary, and a list with the first second of the year
10000 gives no body. -/
theorem model_list_translation_witness :
    (∃ out,
        Handlers.Tags Handlers.utc
            (.ok [{ id := utf8 "gpt-x", created := 1700000000, object := utf8 "model",
                    ownedBy := utf8 "openai" }]) = .ok out
          ∧ out.length = 1
          ∧ out[0]? = some { name := utf8 "gpt-x", model := utf8 "gpt-x",
                             modifiedAt := 1700000000, size := 0, digest := utf8 "dummy",
                             details := .zero })
      ∧ Handlers.Tags Handlers.utc
          (.ok [{ id := utf8 "gpt-x", created := 253402300800, object := utf8 "model",
                  ownedBy := utf8 "openai" }]) = .emptyBody := by
  constructor
  · obtain ⟨out, ho, hl, hi⟩ :=
      (model_list_translation Handlers.utc
        [{ id := utf8 "gpt-x", created := 1700000000, object := utf8 "model",
           ownedBy := utf8 "openai" }] { data := [] }).1 (by decide)
    exact ⟨out, ho, hl, by rw [hi 0]; rfl⟩
  · exact
      (model_list_translation Handlers.utc
        [{ id := utf8 "gpt-x", created := 253402300800, object := utf8 "model",
           ownedBy := utf8 "openai" }] { data := [] }).2.1
        ⟨_, List.mem_singleton.2 rfl, by decide⟩

/-- The scenario of the spec for the model list: the upstream body with the
one id `gpt-x` gives one summary with name and model `gpt-x`. -/
theorem handleListModels_scenario :
    Main.handleListModels Main.decodeModelResponseBody (utf8 "\x7b\"data\":[\x7b\"id\":\"gpt-x\"\x7d]\x7d")
      = .json { models := [{ name := utf8 "gpt-x", model := utf8 "gpt-x", modifiedAt := [],
                             size := 0, digest := [], details := [] }] } := by
  decide

end OllamaProxy
